import Mathlib

/-!
Shallow embedding of `src/lib/storage.ts` from the drawHandShapes repository.

The module maintains a process-wide in-memory list of image records
(`globalThis.imageStore`) mirrored against a directory tree on disk.  We model:

* the in-memory list as `List ImageData` (appends model `push`, `List.filter`
  models `Array.prototype.filter`);
* the flat filesystem visible to `addImage`/`deleteImage` as a list of existing
  file paths plus a set of paths whose `unlinkSync` throws (modelling
  permission errors and the like);
* the directory tree visible to the reconciliation scan
  (`loadImagesFromFilesystem`) as a structured `DirTree`; each directory entry
  carries a `statFails` flag modelling a `statSync` call that throws, which is
  how an unexpected filesystem error surfaces inside the scan (the scan's
  `try`/`catch` then aborts the walk, keeping the records appended so far);
* `path.join` as separator concatenation that skips empty segments (Node's
  `path.join` drops empty segments; further normalisation such as collapsing
  `./` is irrelevant here because every path is built by the same helper);
* JS numbers (`Date.now()`, `mtimeMs`, `parseInt`) as `Nat` — none of the
  verified properties depend on float precision;
* `throw` in `addImage` as an `Except` result paired with the unchanged state,
  and the `try`/`catch` of `deleteImage`/the scan as total functions.
-/

namespace DrawHandShapes

/-- One entry of the in-memory store (`type ImageData` in storage.ts).
`filePath` holds the web-relative path (named `storagePath` in the spec). -/
structure ImageData where
  filename : String
  label : String
  quality : String
  image : String
  timestamp : Nat
  filePath : String
deriving DecidableEq, Repr

/-- The three valid labels (storage.ts lines 42 and 148). -/
def validLabels : List String := ["circle", "square", "triangle"]

/-- The three valid qualities (storage.ts lines 43 and 154). -/
def validQualities : List String := ["perfect", "medium", "irregular"]

/-- `getFolderName`: maps label to folder name (singular to plural). -/
def getFolderName (label : String) : String :=
  if label = "circle" then "circles"
  else if label = "square" then "squares"
  else if label = "triangle" then "triangles"
  else label

/-- Node `path.join` on two segments: empty segments are skipped, otherwise
the segments are joined with a separator. -/
def pathJoin (a b : String) : String :=
  if a = "" then b else if b = "" then a else a ++ "/" ++ b

/-- `process.cwd()`, an opaque root; every path in the model goes through
`pathJoin` from here, so its concrete value is irrelevant. -/
def cwd : String := "."

/-- `path.join(process.cwd(), "public", "shapes")`, the scan root. -/
def publicShapesDir : String := pathJoin (pathJoin cwd "public") "shapes"

/-- Converts a web-relative `filePath` (e.g. `/shapes/circles/perfect/x.png`)
to a filesystem path, as `deleteImage` does (storage.ts lines 251-254). -/
def webToFs (p : String) : String :=
  let relativePath := if p.startsWith "/" then p.drop 1 else p
  pathJoin (pathJoin cwd "public") relativePath

/-- ASCII lower-casing of one character, as the case-insensitive regex flag
applies to the ASCII extension letters. -/
def lowerChar (c : Char) : Char :=
  if c.isUpper then Char.ofNat (c.toNat + 32) else c

/-- Splits off a recognized image extension, case-insensitively: the
characters of the filename before `.png`/`.jpg`/`.jpeg`, or `none` if the
name has no such extension.  This is the `\.(png|jpg|jpeg)$/i` suffix test
of the scan. -/
def extractStem (name : String) : Option (List Char) :=
  let lower := name.data.map lowerChar
  let n := lower.length
  if lower.drop (n - 4) = ".png".data then some (name.data.take (n - 4))
  else if lower.drop (n - 4) = ".jpg".data then some (name.data.take (n - 4))
  else if lower.drop (n - 5) = ".jpeg".data then some (name.data.take (n - 5))
  else none

/-- `file.match(/\.(png|jpg|jpeg)$/i)` as a boolean. -/
def isImageName (name : String) : Bool :=
  (extractStem name).isSome

/-- Decimal value of a digit string (JS `parseInt(..., 10)`). -/
def digitsToNat (ds : List Char) : Nat :=
  ds.foldl (fun n c => n * 10 + (c.toNat - 48)) 0

/-- The timestamp embedded in a filename, per the scan's regex
`^(.+)_(\d+)\.(png|jpg|jpeg)$/i`: with greedy matching, group 2 is the
maximal all-digit run that ends the stem, provided it is immediately preceded
by an underscore that is not the first character.  Returns `none` when the
pattern does not match (the scan then falls back to `mtimeMs`). -/
def extractTimestamp (name : String) : Option Nat :=
  match extractStem name with
  | none => none
  | some stem =>
    let rcs := stem.reverse
    let ds := rcs.takeWhile (fun c => c.isDigit)
    let rest := rcs.dropWhile (fun c => c.isDigit)
    match rest with
    | '_' :: _ :: _ => if ds.isEmpty then none else some (digitsToNat ds.reverse)
    | _ => none

/-- The flat filesystem seen by `addImage`/`deleteImage`: the set of existing
file paths, plus the paths at which `unlinkSync` throws (e.g. permission
errors); unlinking such a path fails and leaves the file in place. -/
structure FileSys where
  files : List String
  unlinkFails : List String
deriving DecidableEq, Repr

/-- Full mutable state: the filesystem and `globalThis.imageStore`. -/
structure Sys where
  fs : FileSys
  store : List ImageData
deriving DecidableEq, Repr

/-- A directory entry as seen by the scan: its name, whether `statSync`
reports a regular file, whether `statSync` throws (modelling an unexpected
filesystem error at this entry), and its modification time. -/
structure DirEntry where
  name : String
  isFile : Bool
  statFails : Bool
  mtimeMs : Nat
deriving DecidableEq, Repr

/-- A label directory (e.g. `public/shapes/circles`): whether it is a
directory, its quality subdirectories keyed by name (present in the list iff
`existsSync` holds), and the entries of the directory itself. -/
structure LabelDirData where
  isDir : Bool
  qualityEntries : List (String × List DirEntry)
  flatEntries : List DirEntry
deriving DecidableEq, Repr

/-- The tree under `publicShapesDir`: whether the root exists, and the label
directories keyed by folder name (present in the list iff `existsSync`). -/
structure DirTree where
  rootExists : Bool
  labelDirs : List (String × LabelDirData)
deriving DecidableEq, Repr

/-- Exact (filename, label, quality) match, the duplicate check of the scan
(storage.ts lines 86-88 and 118-120). -/
def sameTriple (img : ImageData) (f l q : String) : Prop :=
  img.filename = f ∧ img.label = l ∧ img.quality = q

instance (img : ImageData) (f l q : String) : Decidable (sameTriple img f l q) := by
  unfold sameTriple; infer_instance

/-- The record built by the scan's quality pass for one entry (storage.ts
lines 76-83): timestamp from the filename pattern, falling back to the
modification time, and the web-relative path under the quality folder. -/
def qualityRecord (label folderName quality : String) (e : DirEntry) : ImageData :=
  { filename := e.name, label := label, quality := quality, image := "",
    timestamp := (extractTimestamp e.name).getD e.mtimeMs,
    filePath := "/shapes/" ++ folderName ++ "/" ++ quality ++ "/" ++ e.name }

/-- The record built by the scan's backward-compatibility pass for one flat
entry (storage.ts lines 109-116): quality defaults to `"perfect"` and the
web-relative path has no quality segment. -/
def flatRecord (label folderName : String) (e : DirEntry) : ImageData :=
  { filename := e.name, label := label, quality := "perfect", image := "",
    timestamp := (extractTimestamp e.name).getD e.mtimeMs,
    filePath := "/shapes/" ++ folderName ++ "/" ++ e.name }

/-- Inner loop of the scan's quality pass (storage.ts lines 65-93): for each
entry with an image extension, `statSync` (a failure aborts the whole scan),
derive the timestamp, and append a record unless the exact triple is already
in the store.  Returns the store and `true`, or the store reached so far and
`false` when an entry's `statSync` threw. -/
def processQualityEntries (label folderName quality : String) :
    List ImageData → List DirEntry → List ImageData × Bool
  | store, [] => (store, true)
  | store, e :: es =>
    if isImageName e.name then
      if e.statFails then (store, false)
      else
        let store1 :=
          if ∃ img ∈ store, sameTriple img e.name label quality then store
          else store ++ [qualityRecord label folderName quality e]
        processQualityEntries label folderName quality store1 es
    else processQualityEntries label folderName quality store es

/-- The quality pass of the scan (storage.ts lines 61-95): for each valid
quality whose subdirectory exists, process its entries; an entry failure
aborts the remaining qualities. -/
def processQualityDirs (label folderName : String) (ld : LabelDirData) :
    List ImageData → List String → List ImageData × Bool
  | store, [] => (store, true)
  | store, q :: qs =>
    match ld.qualityEntries.lookup q with
    | none => processQualityDirs label folderName ld store qs
    | some entries =>
      match processQualityEntries label folderName q store entries with
      | (store1, true) => processQualityDirs label folderName ld store1 qs
      | (store1, false) => (store1, false)

/-- The backward-compatibility pass (storage.ts lines 97-125): every entry of
the label directory is `statSync`ed (a failure aborts the scan); regular files
with an image extension are appended as quality `"perfect"` unless the exact
triple is already in the store. -/
def processFlatEntries (label folderName : String) :
    List ImageData → List DirEntry → List ImageData × Bool
  | store, [] => (store, true)
  | store, e :: es =>
    if e.statFails then (store, false)
    else if e.isFile ∧ isImageName e.name then
      let store1 :=
        if ∃ img ∈ store, sameTriple img e.name label "perfect" then store
        else store ++ [flatRecord label folderName e]
      processFlatEntries label folderName store1 es
    else processFlatEntries label folderName store es

/-- The label loop of the scan (storage.ts lines 51-128): for each valid
label whose folder exists and is a directory, run the quality pass then the
flat pass; a failure aborts the remaining labels. -/
def processLabels (tree : DirTree) :
    List ImageData → List String → List ImageData × Bool
  | store, [] => (store, true)
  | store, label :: rest =>
    let folderName := getFolderName label
    match tree.labelDirs.lookup folderName with
    | none => processLabels tree store rest
    | some ld =>
      if ld.isDir then
        match processQualityDirs label folderName ld store validQualities with
        | (s1, false) => (s1, false)
        | (s1, true) =>
          match processFlatEntries label folderName s1 ld.flatEntries with
          | (s2, false) => (s2, false)
          | (s2, true) => processLabels tree s2 rest
      else processLabels tree store rest

/-- `loadImagesFromFilesystem` (storage.ts lines 40-134): if the root does
not exist the scan is a no-op; otherwise walk the three labels.  The
enclosing `try`/`catch` swallows any error, keeping the records appended so
far, so only the store component of the walk is returned. -/
def loadImagesFromFilesystem (tree : DirTree) (store : List ImageData) : List ImageData :=
  if tree.rootExists then (processLabels tree store validLabels).1 else store

/-- `addImage` (storage.ts lines 143-197): validate label and quality
(throwing, i.e. returning `Except.error` with the state unchanged, when
invalid), then write the file at the canonical path and push the record.
`now` is the value of `Date.now()`. -/
def addImage (sys : Sys) (label quality image : String) (now : Nat) :
    Sys × Except String ImageData :=
  let timestamp := now
  let filename := label ++ "_" ++ toString timestamp ++ ".png"
  if label ∉ validLabels then
    (sys, .error ("Invalid label: " ++ label ++ ". Must be one of: " ++
      String.intercalate ", " validLabels))
  else if quality ∉ validQualities then
    (sys, .error ("Invalid quality: " ++ quality ++ ". Must be one of: " ++
      String.intercalate ", " validQualities))
  else
    let folderName := getFolderName label
    let publicDir := pathJoin (pathJoin (pathJoin (pathJoin cwd "public") "shapes") folderName) quality
    let filePath := pathJoin publicDir filename
    let files2 := if filePath ∈ sys.fs.files then sys.fs.files else sys.fs.files ++ [filePath]
    let webPath := "/shapes/" ++ folderName ++ "/" ++ quality ++ "/" ++ filename
    let imageData : ImageData :=
      { filename := filename, label := label, quality := quality, image := image,
        timestamp := timestamp, filePath := webPath }
    (⟨⟨files2, sys.fs.unlinkFails⟩, sys.store ++ [imageData]⟩, .ok imageData)

/-- `getAllImages` (storage.ts lines 199-202): a copy of the store sorted by
timestamp descending.  JS `Array.prototype.sort` is stable, and a stable sort
by a total preorder is unique, so stable `mergeSort` models it exactly. -/
def getAllImages (store : List ImageData) : List ImageData :=
  store.mergeSort (fun a b => decide (b.timestamp ≤ a.timestamp))

/-- `getImagesByLabel` (storage.ts lines 204-206). -/
def getImagesByLabel (store : List ImageData) (label : String) : List ImageData :=
  store.filter (fun img => decide (img.label = label))

/-- `getImagesByQuality` (storage.ts lines 208-210). -/
def getImagesByQuality (store : List ImageData) (quality : String) : List ImageData :=
  store.filter (fun img => decide (img.quality = quality))

/-- `getImagesByLabelAndQuality` (storage.ts lines 212-214). -/
def getImagesByLabelAndQuality (store : List ImageData) (label quality : String) : List ImageData :=
  store.filter (fun img => decide (img.label = label ∧ img.quality = quality))

/-- JS `quality || "perfect"`: the quality string, defaulted to `"perfect"`
when empty/absent (the empty string models an absent/falsy value). -/
def normQuality (q : String) : String :=
  if q = "" then "perfect" else q

/-- Match on the (filename, label, normalized-quality) triple, as used by
`findImageInStore` and by `deleteImage`'s store filter. -/
def sameNormTriple (img : ImageData) (f l q : String) : Prop :=
  img.filename = f ∧ img.label = l ∧ normQuality img.quality = normQuality q

instance (img : ImageData) (f l q : String) : Decidable (sameNormTriple img f l q) := by
  unfold sameNormTriple; infer_instance

/-- `findImageInStore` (storage.ts lines 219-229): first record matching the
(filename, label, normalized-quality) triple. -/
def findImageInStore (store : List ImageData) (filename label quality : String) :
    Option ImageData :=
  store.find? (fun img => decide (sameNormTriple img filename label quality))

/-- The candidate loop of `deleteImage` (storage.ts lines 272-283): walk the
candidates in order; at the first existing path, try to unlink it — success
removes the file and stops, an `unlinkSync` failure is caught and the next
candidate is tried. -/
def tryUnlink (fs : FileSys) : List String → FileSys × Bool
  | [] => (fs, false)
  | p :: ps =>
    if p ∈ fs.files then
      if p ∈ fs.unlinkFails then tryUnlink fs ps
      else ({ fs with files := fs.files.erase p }, true)
    else tryUnlink fs ps

/-- `deleteImage` (storage.ts lines 238-309): look the record up to recover
its `filePath`, build the candidate paths (record path if found and nonempty,
then the quality-subdirectory path, then the legacy flat path), try them in
order, then unconditionally filter the store by the normalized triple; the
result is `deleted || removedFromStore`. -/
def deleteImage (sys : Sys) (filename label quality : String) : Sys × Bool :=
  let imageInStore := findImageInStore sys.store filename label quality
  let storePaths :=
    match imageInStore with
    | some img => if img.filePath ≠ "" then [webToFs img.filePath] else []
    | none => []
  let folderName := getFolderName label
  let qualityDir := pathJoin (pathJoin (pathJoin (pathJoin cwd "public") "shapes") folderName) quality
  let qualityFilePath := pathJoin qualityDir filename
  let oldDir := pathJoin (pathJoin (pathJoin cwd "public") "shapes") folderName
  let oldFilePath := pathJoin oldDir filename
  let pathsToTry := storePaths ++ [qualityFilePath, oldFilePath]
  let res := tryUnlink sys.fs pathsToTry
  let newStore := sys.store.filter
    (fun img => !decide (sameNormTriple img filename label quality))
  let removedFromStore := newStore.length < sys.store.length
  (⟨res.1, newStore⟩, res.2 || removedFromStore)

/-- The candidate-path list in the spec's priority order (§4.4): first the
path derived from the found record's web-relative `storagePath`, then the
canonical quality-subdirectory path, then the legacy flat path.  Stated from
the spec's words, to be compared with `deleteImage`'s behaviour. -/
def specDeleteCandidates (store : List ImageData) (filename label quality : String) :
    List String :=
  (match findImageInStore store filename label quality with
   | some img => if img.filePath ≠ "" then [webToFs img.filePath] else []
   | none => []) ++
  [pathJoin (pathJoin (pathJoin (pathJoin (pathJoin cwd "public") "shapes") (getFolderName label)) quality) filename,
   pathJoin (pathJoin (pathJoin (pathJoin cwd "public") "shapes") (getFolderName label)) filename]

/-- The record appended by a successful `addImage` call (storage.ts lines
182-189), with `now` the value of `Date.now()`. -/
def addRecord (label quality image : String) (now : Nat) : ImageData :=
  { filename := label ++ "_" ++ toString now ++ ".png", label := label, quality := quality,
    image := image, timestamp := now,
    filePath := "/shapes/" ++ getFolderName label ++ "/" ++ quality ++ "/" ++
      (label ++ "_" ++ toString now ++ ".png") }

/-- No two records share the exact (filename, label, quality) triple. -/
def RawUnique (s : List ImageData) : Prop :=
  s.Pairwise (fun a b => ¬ (a.filename = b.filename ∧ a.label = b.label ∧ a.quality = b.quality))

/-- No two records share the (filename, label, normalized-quality) triple —
the identity invariant of the spec. -/
def NormUnique (s : List ImageData) : Prop :=
  s.Pairwise (fun a b =>
    ¬ (a.filename = b.filename ∧ a.label = b.label ∧ normQuality a.quality = normQuality b.quality))

/-- Every record carries a valid label and a valid quality. -/
def QualityValid (s : List ImageData) : Prop :=
  ∀ img ∈ s, img.label ∈ validLabels ∧ img.quality ∈ validQualities

/-- No entry of the tree makes `statSync` throw: the scan encounters no
unexpected filesystem error. -/
def noStatFails (tree : DirTree) : Bool :=
  tree.labelDirs.all (fun p =>
    p.2.qualityEntries.all (fun qp => qp.2.all (fun e => !e.statFails)) &&
    p.2.flatEntries.all (fun e => !e.statFails))

/-- An image file lies in the tree at the canonical location
`shapes/<folder(l)>/<q>/<f>`: label and quality valid, the label folder
present and a directory, the quality subdirectory present, and an entry with
that name carrying a recognized image extension. -/
def qualityFileOnDisk (tree : DirTree) (f l q : String) : Bool :=
  validLabels.contains l && validQualities.contains q &&
  (match tree.labelDirs.lookup (getFolderName l) with
   | none => false
   | some ld => ld.isDir &&
     (match ld.qualityEntries.lookup q with
      | none => false
      | some es => es.any (fun e => e.name == f && isImageName e.name)))

/-- An image file lies flat in the tree at the legacy location
`shapes/<folder(l)>/<f>`: a regular file with a recognized image extension
directly in the label folder. -/
def flatFileOnDisk (tree : DirTree) (f l : String) : Bool :=
  validLabels.contains l &&
  (match tree.labelDirs.lookup (getFolderName l) with
   | none => false
   | some ld => ld.isDir &&
     ld.flatEntries.any (fun e => e.name == f && e.isFile && isImageName e.name))

/-- The number of on-disk image files the scan can see, stated from the
spec's words ("one record per on-disk file"): image-extension entries of each
present quality subdirectory of each valid label folder, plus regular-file
image entries lying flat in the label folder. -/
def specImageFileCount (tree : DirTree) : Nat :=
  if tree.rootExists then
    (validLabels.map (fun l =>
      match tree.labelDirs.lookup (getFolderName l) with
      | none => 0
      | some ld =>
        if ld.isDir then
          (validQualities.map (fun q =>
            match ld.qualityEntries.lookup q with
            | none => 0
            | some es => (es.filter (fun e => isImageName e.name)).length)).sum +
          (ld.flatEntries.filter (fun e => e.isFile && isImageName e.name)).length
        else 0)).sum
  else 0

/-- The states of the in-memory list reachable from the empty store through
the module's operations: the reconciliation scan against any directory tree,
`addImage` with any inputs and clock value, and `deleteImage` with any
inputs.  The filesystem argument is quantified since the list effect of
`addImage`/`deleteImage` does not depend on it. -/
inductive Reachable : List ImageData → Prop
  | init : Reachable []
  | scan (tree : DirTree) {s : List ImageData} :
      Reachable s → Reachable (loadImagesFromFilesystem tree s)
  | add (fs : FileSys) (label quality image : String) (now : Nat) {s : List ImageData} :
      Reachable s → Reachable (addImage ⟨fs, s⟩ label quality image now).1.store
  | del (fs : FileSys) (filename label quality : String) {s : List ImageData} :
      Reachable s → Reachable (deleteImage ⟨fs, s⟩ filename label quality).1.store

/-- Reachability with a fresh-filename proviso on `addImage`: a state is
admitted only when the generated filename `<label>_<now>.png` does not
already occur in the store with the same label and quality (which holds, in
particular, whenever `Date.now()` produced a value strictly larger than all
stored timestamps). -/
inductive ReachableFresh : List ImageData → Prop
  | init : ReachableFresh []
  | scan (tree : DirTree) {s : List ImageData} :
      ReachableFresh s → ReachableFresh (loadImagesFromFilesystem tree s)
  | add (fs : FileSys) (label quality image : String) (now : Nat) {s : List ImageData} :
      ReachableFresh s →
      (∀ img ∈ s, ¬ sameTriple img (label ++ "_" ++ toString now ++ ".png") label quality) →
      ReachableFresh (addImage ⟨fs, s⟩ label quality image now).1.store
  | del (fs : FileSys) (filename label quality : String) {s : List ImageData} :
      ReachableFresh s → ReachableFresh (deleteImage ⟨fs, s⟩ filename label quality).1.store

/-! ### Helper lemmas -/

lemma filter_length_lt_iff (p : α → Bool) (l : List α) :
    (l.filter p).length < l.length ↔ ∃ a ∈ l, ¬ p a = true := by
  induction l with
  | nil => simp
  | cons a t ih =>
    by_cases hpa : p a = true
    · simp [List.filter_cons, hpa, ih]
    · simp only [List.filter_cons, hpa, if_neg, Bool.false_eq_true, ite_false, List.length_cons]
      constructor
      · intro _; exact ⟨a, List.mem_cons_self a t, by simp [hpa]⟩
      · intro _; exact Nat.lt_succ_of_le (List.length_filter_le p t)

lemma erase_ne_of_mem {l : List String} {p : String} (hp : p ∈ l) : l.erase p ≠ l := by
  intro h
  have h1 : (l.erase p).length = l.length - 1 := List.length_erase_of_mem hp
  have h2 : 0 < l.length := List.length_pos.mpr (by rintro rfl; simp at hp)
  rw [h] at h1
  omega

lemma tryUnlink_eq (fs : FileSys) (ps : List String) :
    tryUnlink fs ps =
      ((ps.find? (fun p => decide (p ∈ fs.files ∧ p ∉ fs.unlinkFails))).elim fs
        (fun p => ⟨fs.files.erase p, fs.unlinkFails⟩),
       (ps.find? (fun p => decide (p ∈ fs.files ∧ p ∉ fs.unlinkFails))).isSome) := by
  induction ps with
  | nil => simp [tryUnlink]
  | cons p ps ih =>
    by_cases h1 : p ∈ fs.files
    · by_cases h2 : p ∈ fs.unlinkFails
      · simpa [tryUnlink, List.find?_cons, h1, h2] using ih
      · simp [tryUnlink, List.find?_cons, h1, h2]
    · simpa [tryUnlink, List.find?_cons, h1] using ih

lemma deleteImage_store (sys : Sys) (f l q : String) :
    (deleteImage sys f l q).1.store =
      sys.store.filter (fun img => !decide (sameNormTriple img f l q)) := rfl

lemma deleteImage_fs_ret (sys : Sys) (f l q : String) :
    (deleteImage sys f l q).1.fs =
        ((specDeleteCandidates sys.store f l q).find?
            (fun p => decide (p ∈ sys.fs.files ∧ p ∉ sys.fs.unlinkFails))).elim sys.fs
          (fun p => ⟨sys.fs.files.erase p, sys.fs.unlinkFails⟩) ∧
      (deleteImage sys f l q).2 =
        (((specDeleteCandidates sys.store f l q).find?
            (fun p => decide (p ∈ sys.fs.files ∧ p ∉ sys.fs.unlinkFails))).isSome ||
          decide ((sys.store.filter (fun img => !decide (sameNormTriple img f l q))).length <
            sys.store.length)) := by
  have h : deleteImage sys f l q =
      (⟨(tryUnlink sys.fs (specDeleteCandidates sys.store f l q)).1,
        sys.store.filter (fun img => !decide (sameNormTriple img f l q))⟩,
       (tryUnlink sys.fs (specDeleteCandidates sys.store f l q)).2 ||
        decide ((sys.store.filter (fun img => !decide (sameNormTriple img f l q))).length <
          sys.store.length)) := rfl
  rw [h, tryUnlink_eq]
  exact ⟨rfl, rfl⟩

/-- C2: `deleteImage` returns `true` exactly when it removed a backing file
(the resulting file set differs) or at least one in-memory record matched the
(filename, label, normalized-quality) triple and was removed; otherwise it
returns `false`.  The function is total: the inner `unlinkSync` failures are
modelled by `unlinkFails` and skipped, and no other operation throws. -/
theorem claim_C2_delete_result (sys : Sys) (f l q : String) :
    (deleteImage sys f l q).2 = true ↔
      ((deleteImage sys f l q).1.fs.files ≠ sys.fs.files ∨
        ∃ img ∈ sys.store, sameNormTriple img f l q) := by
  obtain ⟨hfs, hret⟩ := deleteImage_fs_ret sys f l q
  rw [hret, hfs]
  cases hfind : (specDeleteCandidates sys.store f l q).find?
      (fun p => decide (p ∈ sys.fs.files ∧ p ∉ sys.fs.unlinkFails)) with
  | none =>
    simp only [hfind, Option.elim_none, Option.isSome_none, Bool.false_or]
    rw [decide_eq_true_iff, filter_length_lt_iff]
    simp [sameNormTriple]
  | some p =>
    have hp := List.find?_some hfind
    rw [decide_eq_true_iff] at hp
    simp only [hfind, Option.elim_some, Option.isSome_some, Bool.true_or, true_iff]
    exact Or.inl (erase_ne_of_mem hp.1)

/-- C4: `deleteImage` tries the candidate paths in the spec's priority order
(record `storagePath` first, then the canonical quality-subdirectory path,
then the legacy flat path); the file removed is exactly the first candidate
that exists and whose unlink succeeds — candidates whose unlink fails are
skipped, not fatal — and nothing else on the filesystem changes; the call
reports `true` whenever some candidate was removed. -/
theorem claim_C4_delete_path_priority (sys : Sys) (f l q : String) :
    (deleteImage sys f l q).1.fs =
        ((specDeleteCandidates sys.store f l q).find?
            (fun p => decide (p ∈ sys.fs.files ∧ p ∉ sys.fs.unlinkFails))).elim sys.fs
          (fun p => ⟨sys.fs.files.erase p, sys.fs.unlinkFails⟩) ∧
      (deleteImage sys f l q).2 =
        (((specDeleteCandidates sys.store f l q).find?
            (fun p => decide (p ∈ sys.fs.files ∧ p ∉ sys.fs.unlinkFails))).isSome ||
          decide (∃ img ∈ sys.store, sameNormTriple img f l q)) := by
  obtain ⟨hfs, hret⟩ := deleteImage_fs_ret sys f l q
  refine ⟨hfs, hret.trans ?_⟩
  congr 1
  rw [Bool.decide_congr (filter_length_lt_iff _ _)]
  congr 1
  simp

/-- C3 fails on the code: with an empty (absent) quality the canonical
quality-subdirectory candidate collapses to the legacy flat path (the raw
quality is used in `path.join`, and empty segments are skipped), so a file
that exists only under `.../perfect/` and has no in-memory record is missed.
Here `deleteImage` with `""` returns `false` and leaves the file, while with
`"perfect"` it returns `true` and removes it. -/
theorem claim_C3_counterexample :
    (deleteImage ⟨⟨["./public/shapes/circles/perfect/a_1.png"], []⟩, []⟩
        "a_1.png" "circle" "").2 = false ∧
      (deleteImage ⟨⟨["./public/shapes/circles/perfect/a_1.png"], []⟩, []⟩
          "a_1.png" "circle" "").1.fs.files = ["./public/shapes/circles/perfect/a_1.png"] ∧
      (deleteImage ⟨⟨["./public/shapes/circles/perfect/a_1.png"], []⟩, []⟩
          "a_1.png" "circle" "perfect").2 = true ∧
      (deleteImage ⟨⟨["./public/shapes/circles/perfect/a_1.png"], []⟩, []⟩
          "a_1.png" "circle" "perfect").1.fs.files = [] := by decide

/-- C3 (amended): `deleteImage` with an absent/empty quality agrees with
quality `"perfect"` in the record lookup and in the effect on the in-memory
list — but not necessarily in the filesystem effect or return value, because
the quality-subdirectory candidate path is built from the raw quality. -/
theorem claim_C3_empty_quality_store (sys : Sys) (f l : String) :
    findImageInStore sys.store f l "" = findImageInStore sys.store f l "perfect" ∧
      (deleteImage sys f l "").1.store = (deleteImage sys f l "perfect").1.store := by
  constructor
  · unfold findImageInStore
    congr 1
  · rw [deleteImage_store, deleteImage_store]
    congr 1

/-- C5: `addImage` with an invalid label (or a valid label and invalid
quality) returns the error naming the invalid value and the allowed set, and
leaves the whole state — in-memory list and filesystem — unchanged. -/
theorem claim_C5_add_validation (sys : Sys) (label quality image : String) (now : Nat) :
    (label ∉ validLabels →
      addImage sys label quality image now =
        (sys, .error ("Invalid label: " ++ label ++ ". Must be one of: " ++
          "circle, square, triangle"))) ∧
    (label ∈ validLabels → quality ∉ validQualities →
      addImage sys label quality image now =
        (sys, .error ("Invalid quality: " ++ quality ++ ". Must be one of: " ++
          "perfect, medium, irregular"))) := by
  constructor
  · intro h
    have hs : String.intercalate ", " validLabels = "circle, square, triangle" := by decide
    simp [addImage, h, hs]
  · intro h1 h2
    have hs : String.intercalate ", " validQualities = "perfect, medium, irregular" := by decide
    simp [addImage, h1, h2, hs]

/-- C5 witness: concrete invalid label and invalid quality. -/
theorem claim_C5_witness :
    addImage ⟨⟨[], []⟩, []⟩ "hexagon" "perfect" "im" 5 =
      (⟨⟨[], []⟩, []⟩, .error ("Invalid label: " ++ "hexagon" ++ ". Must be one of: " ++
        "circle, square, triangle")) ∧
    addImage ⟨⟨[], []⟩, []⟩ "circle" "great" "im" 5 =
      (⟨⟨[], []⟩, []⟩, .error ("Invalid quality: " ++ "great" ++ ". Must be one of: " ++
        "perfect, medium, irregular")) :=
  ⟨(claim_C5_add_validation ⟨⟨[], []⟩, []⟩ "hexagon" "perfect" "im" 5).1 (by decide),
   (claim_C5_add_validation ⟨⟨[], []⟩, []⟩ "circle" "great" "im" 5).2 (by decide) (by decide)⟩

/-! ### Scan lemmas: monotonicity (the scan only appends) -/

@[simp] lemma qualityRecord_filename (L F Q : String) (e : DirEntry) :
    (qualityRecord L F Q e).filename = e.name := rfl

@[simp] lemma qualityRecord_label (L F Q : String) (e : DirEntry) :
    (qualityRecord L F Q e).label = L := rfl

@[simp] lemma qualityRecord_quality (L F Q : String) (e : DirEntry) :
    (qualityRecord L F Q e).quality = Q := rfl

@[simp] lemma flatRecord_filename (L F : String) (e : DirEntry) :
    (flatRecord L F e).filename = e.name := rfl

@[simp] lemma flatRecord_label (L F : String) (e : DirEntry) :
    (flatRecord L F e).label = L := rfl

@[simp] lemma flatRecord_quality (L F : String) (e : DirEntry) :
    (flatRecord L F e).quality = "perfect" := rfl

lemma lookup_mem {β : Type} : ∀ (l : List (String × β)) (a : String) (b : β),
    l.lookup a = some b → (a, b) ∈ l := by
  intro l
  induction l with
  | nil => intro a b h; simp [List.lookup] at h
  | cons p t ih =>
    intro a b h
    cases p with
    | mk k v =>
      rw [List.lookup_cons] at h
      by_cases hk : a = k
      · subst hk
        simp only [beq_self_eq_true] at h
        cases h
        exact List.mem_cons_self _ _
      · have hb : (a == k) = false := beq_eq_false_iff_ne.mpr hk
        simp only [hb] at h
        exact List.mem_cons_of_mem _ (ih a b h)

lemma processQualityEntries_append (L F Q : String) :
    ∀ (es : List DirEntry) (store : List ImageData),
      ∃ t, (processQualityEntries L F Q store es).1 = store ++ t := by
  intro es
  induction es with
  | nil => exact fun store => ⟨[], by simp [processQualityEntries]⟩
  | cons e es ih =>
    intro store
    by_cases him : isImageName e.name = true
    · by_cases hsf : e.statFails = true
      · exact ⟨[], by simp [processQualityEntries, him, hsf]⟩
      · by_cases hex : ∃ img ∈ store, sameTriple img e.name L Q
        · obtain ⟨t, ht⟩ := ih store
          exact ⟨t, by simpa [processQualityEntries, him, hsf, hex] using ht⟩
        · obtain ⟨t, ht⟩ := ih (store ++ [qualityRecord L F Q e])
          refine ⟨qualityRecord L F Q e :: t, ?_⟩
          simp only [processQualityEntries, him, hsf, hex, if_true, if_false,
            Bool.false_eq_true, ite_true, ite_false]
          rw [ht, List.append_assoc, List.singleton_append]
    · obtain ⟨t, ht⟩ := ih store
      exact ⟨t, by simpa [processQualityEntries, him] using ht⟩

lemma processFlatEntries_append (L F : String) :
    ∀ (es : List DirEntry) (store : List ImageData),
      ∃ t, (processFlatEntries L F store es).1 = store ++ t := by
  intro es
  induction es with
  | nil => exact fun store => ⟨[], by simp [processFlatEntries]⟩
  | cons e es ih =>
    intro store
    by_cases hsf : e.statFails = true
    · exact ⟨[], by simp [processFlatEntries, hsf]⟩
    · by_cases hfi : e.isFile = true ∧ isImageName e.name = true
      · by_cases hex : ∃ img ∈ store, sameTriple img e.name L "perfect"
        · obtain ⟨t, ht⟩ := ih store
          exact ⟨t, by simpa [processFlatEntries, hsf, hfi, hex] using ht⟩
        · obtain ⟨t, ht⟩ := ih (store ++ [flatRecord L F e])
          refine ⟨flatRecord L F e :: t, ?_⟩
          simp only [processFlatEntries, hsf, hfi, hex, if_true, if_false,
            Bool.false_eq_true, ite_true, ite_false, and_true, true_and]
          rw [ht, List.append_assoc, List.singleton_append]
      · obtain ⟨t, ht⟩ := ih store
        exact ⟨t, by simpa [processFlatEntries, hsf, hfi] using ht⟩

lemma processQualityDirs_append (L F : String) (ld : LabelDirData) :
    ∀ (qs : List String) (store : List ImageData),
      ∃ t, (processQualityDirs L F ld store qs).1 = store ++ t := by
  intro qs
  induction qs with
  | nil => exact fun store => ⟨[], by simp [processQualityDirs]⟩
  | cons q qs ih =>
    intro store
    cases hq : ld.qualityEntries.lookup q with
    | none =>
      obtain ⟨t, ht⟩ := ih store
      exact ⟨t, by simpa [processQualityDirs, hq] using ht⟩
    | some es =>
      cases hpq : processQualityEntries L F q store es with
      | mk s1 flag =>
        obtain ⟨t1, ht1⟩ := processQualityEntries_append L F q es store
        rw [hpq] at ht1
        replace ht1 : s1 = store ++ t1 := by simpa using ht1
        cases flag with
        | false =>
          exact ⟨t1, by simp [processQualityDirs, hq, hpq, ht1]⟩
        | true =>
          obtain ⟨t2, ht2⟩ := ih s1
          refine ⟨t1 ++ t2, ?_⟩
          simp only [processQualityDirs, hq, hpq]
          rw [ht2, ht1, List.append_assoc]

lemma processLabels_append (tree : DirTree) :
    ∀ (ls : List String) (store : List ImageData),
      ∃ t, (processLabels tree store ls).1 = store ++ t := by
  intro ls
  induction ls with
  | nil => exact fun store => ⟨[], by simp [processLabels]⟩
  | cons l ls ih =>
    intro store
    cases hld : tree.labelDirs.lookup (getFolderName l) with
    | none =>
      obtain ⟨t, ht⟩ := ih store
      exact ⟨t, by simpa [processLabels, hld] using ht⟩
    | some ld =>
      by_cases hdir : ld.isDir = true
      · cases hpq : processQualityDirs l (getFolderName l) ld store validQualities with
        | mk s1 flag1 =>
          obtain ⟨t1, ht1⟩ := processQualityDirs_append l (getFolderName l) ld validQualities store
          rw [hpq] at ht1
          replace ht1 : s1 = store ++ t1 := by simpa using ht1
          cases flag1 with
          | false => exact ⟨t1, by simp [processLabels, hld, hdir, hpq, ht1]⟩
          | true =>
            cases hpf : processFlatEntries l (getFolderName l) s1 ld.flatEntries with
            | mk s2 flag2 =>
              obtain ⟨t2, ht2⟩ := processFlatEntries_append l (getFolderName l) ld.flatEntries s1
              rw [hpf] at ht2
              replace ht2 : s2 = s1 ++ t2 := by simpa using ht2
              cases flag2 with
              | false =>
                refine ⟨t1 ++ t2, ?_⟩
                simp only [processLabels, hld, hdir, hpq, hpf, if_true]
                rw [ht2, ht1, List.append_assoc]
              | true =>
                obtain ⟨t3, ht3⟩ := ih s2
                refine ⟨t1 ++ (t2 ++ t3), ?_⟩
                simp only [processLabels, hld, hdir, hpq, hpf, if_true]
                rw [ht3, ht2, ht1]
                simp [List.append_assoc]
      · obtain ⟨t, ht⟩ := ih store
        exact ⟨t, by simpa [processLabels, hld, hdir] using ht⟩

lemma loadImagesFromFilesystem_append (tree : DirTree) (store : List ImageData) :
    ∃ t, loadImagesFromFilesystem tree store = store ++ t := by
  unfold loadImagesFromFilesystem
  by_cases hr : tree.rootExists = true
  · simpa [hr] using processLabels_append tree validLabels store
  · exact ⟨[], by simp [hr]⟩

/-! ### Scan lemmas: success flag under a failure-free tree -/

lemma processQualityEntries_flag (L F Q : String) :
    ∀ (es : List DirEntry) (store : List ImageData),
      (∀ x ∈ es, x.statFails = false) →
      (processQualityEntries L F Q store es).2 = true := by
  intro es
  induction es with
  | nil => intro store _; simp [processQualityEntries]
  | cons e es ih =>
    intro store hnf
    have hsf : e.statFails = false := hnf e (List.mem_cons_self _ _)
    have hnf' : ∀ x ∈ es, x.statFails = false := fun x hx => hnf x (List.mem_cons_of_mem _ hx)
    by_cases him : isImageName e.name = true
    · by_cases hex : ∃ img ∈ store, sameTriple img e.name L Q
      · simpa [processQualityEntries, him, hsf, hex] using ih store hnf'
      · simpa [processQualityEntries, him, hsf, hex] using
          ih (store ++ [qualityRecord L F Q e]) hnf'
    · simpa [processQualityEntries, him] using ih store hnf'

lemma processFlatEntries_flag (L F : String) :
    ∀ (es : List DirEntry) (store : List ImageData),
      (∀ x ∈ es, x.statFails = false) →
      (processFlatEntries L F store es).2 = true := by
  intro es
  induction es with
  | nil => intro store _; simp [processFlatEntries]
  | cons e es ih =>
    intro store hnf
    have hsf : e.statFails = false := hnf e (List.mem_cons_self _ _)
    have hnf' : ∀ x ∈ es, x.statFails = false := fun x hx => hnf x (List.mem_cons_of_mem _ hx)
    by_cases hfi : e.isFile = true ∧ isImageName e.name = true
    · by_cases hex : ∃ img ∈ store, sameTriple img e.name L "perfect"
      · simpa [processFlatEntries, hsf, hfi, hex] using ih store hnf'
      · simpa [processFlatEntries, hsf, hfi, hex] using ih (store ++ [flatRecord L F e]) hnf'
    · simpa [processFlatEntries, hsf, hfi] using ih store hnf'

lemma processQualityDirs_flag (L F : String) (ld : LabelDirData)
    (hnf : ∀ qp ∈ ld.qualityEntries, ∀ x ∈ qp.2, x.statFails = false) :
    ∀ (qs : List String) (store : List ImageData),
      (processQualityDirs L F ld store qs).2 = true := by
  intro qs
  induction qs with
  | nil => intro store; simp [processQualityDirs]
  | cons q qs ih =>
    intro store
    cases hq : ld.qualityEntries.lookup q with
    | none => simpa [processQualityDirs, hq] using ih store
    | some es =>
      have hesf : ∀ x ∈ es, x.statFails = false := hnf (q, es) (lookup_mem _ _ _ hq)
      cases hpq : processQualityEntries L F q store es with
      | mk s1 flag =>
        have := processQualityEntries_flag L F q es store hesf
        rw [hpq] at this
        cases this
        simpa [processQualityDirs, hq, hpq] using ih s1

/-- Unpacks `noStatFails` into per-directory hypotheses. -/
lemma noStatFails_spec {tree : DirTree} (h : noStatFails tree = true) :
    ∀ p ∈ tree.labelDirs,
      (∀ qp ∈ p.2.qualityEntries, ∀ x ∈ qp.2, x.statFails = false) ∧
      (∀ x ∈ p.2.flatEntries, x.statFails = false) := by
  intro p hp
  rw [noStatFails, List.all_eq_true] at h
  have hp2 := h p hp
  rw [Bool.and_eq_true] at hp2
  constructor
  · intro qp hqp x hx
    have := hp2.1
    rw [List.all_eq_true] at this
    have hq := this qp hqp
    rw [List.all_eq_true] at hq
    have := hq x hx
    simpa using this
  · intro x hx
    have := hp2.2
    rw [List.all_eq_true] at this
    have := this x hx
    simpa using this

lemma processLabels_flag (tree : DirTree) (hns : noStatFails tree = true) :
    ∀ (ls : List String) (store : List ImageData),
      (processLabels tree store ls).2 = true := by
  intro ls
  induction ls with
  | nil => intro store; simp [processLabels]
  | cons l ls ih =>
    intro store
    cases hld : tree.labelDirs.lookup (getFolderName l) with
    | none => simpa [processLabels, hld] using ih store
    | some ld =>
      by_cases hdir : ld.isDir = true
      · obtain ⟨hq, hf⟩ := noStatFails_spec hns _ (lookup_mem _ _ _ hld)
        cases hpq : processQualityDirs l (getFolderName l) ld store validQualities with
        | mk s1 flag1 =>
          have h1 := processQualityDirs_flag l (getFolderName l) ld hq validQualities store
          rw [hpq] at h1
          cases h1
          cases hpf : processFlatEntries l (getFolderName l) s1 ld.flatEntries with
          | mk s2 flag2 =>
            have h2 := processFlatEntries_flag l (getFolderName l) ld.flatEntries s1 hf
            rw [hpf] at h2
            cases h2
            simpa [processLabels, hld, hdir, hpq, hpf] using ih s2
      · simpa [processLabels, hld, hdir] using ih store

/-! ### Scan lemmas: completeness (every scanned image file is represented) -/

lemma processQualityEntries_complete (L F Q : String) :
    ∀ (es : List DirEntry) (store : List ImageData),
      (∀ x ∈ es, x.statFails = false) →
      ∀ e ∈ es, isImageName e.name = true →
      ∃ img ∈ (processQualityEntries L F Q store es).1, sameTriple img e.name L Q := by
  intro es
  induction es with
  | nil => intro store _ e he; cases he
  | cons e0 es ih =>
    intro store hnf e he him
    have hsf0 : e0.statFails = false := hnf e0 (List.mem_cons_self _ _)
    have hnf' : ∀ x ∈ es, x.statFails = false := fun x hx => hnf x (List.mem_cons_of_mem _ hx)
    rcases List.mem_cons.mp he with rfl | he'
    · by_cases hex : ∃ img ∈ store, sameTriple img e.name L Q
      · obtain ⟨t, ht⟩ := processQualityEntries_append L F Q es store
        simp only [processQualityEntries, him, hsf0, hex, Bool.false_eq_true, ite_true,
          ite_false, if_true, if_false]
        obtain ⟨img, himg, hsame⟩ := hex
        exact ⟨img, by rw [ht]; exact List.mem_append_left _ himg, hsame⟩
      · obtain ⟨t, ht⟩ :=
          processQualityEntries_append L F Q es (store ++ [qualityRecord L F Q e])
        refine ⟨qualityRecord L F Q e, ?_, ⟨rfl, rfl, rfl⟩⟩
        simp only [processQualityEntries, him, hsf0, hex, Bool.false_eq_true, ite_true,
          ite_false, if_true, if_false]
        rw [ht]
        exact List.mem_append_left _ (List.mem_append_right _ (List.mem_singleton.mpr rfl))
    · by_cases him0 : isImageName e0.name = true
      · by_cases hex : ∃ img ∈ store, sameTriple img e0.name L Q
        · simpa [processQualityEntries, him0, hsf0, hex] using ih store hnf' e he' him
        · simpa [processQualityEntries, him0, hsf0, hex] using
            ih (store ++ [qualityRecord L F Q e0]) hnf' e he' him
      · simpa [processQualityEntries, him0] using ih store hnf' e he' him

lemma processFlatEntries_complete (L F : String) :
    ∀ (es : List DirEntry) (store : List ImageData),
      (∀ x ∈ es, x.statFails = false) →
      ∀ e ∈ es, e.isFile = true → isImageName e.name = true →
      ∃ img ∈ (processFlatEntries L F store es).1, sameTriple img e.name L "perfect" := by
  intro es
  induction es with
  | nil => intro store _ e he; cases he
  | cons e0 es ih =>
    intro store hnf e he hfi him
    have hsf0 : e0.statFails = false := hnf e0 (List.mem_cons_self _ _)
    have hnf' : ∀ x ∈ es, x.statFails = false := fun x hx => hnf x (List.mem_cons_of_mem _ hx)
    rcases List.mem_cons.mp he with rfl | he'
    · have hcond : e.isFile = true ∧ isImageName e.name = true := ⟨hfi, him⟩
      by_cases hex : ∃ img ∈ store, sameTriple img e.name L "perfect"
      · obtain ⟨t, ht⟩ := processFlatEntries_append L F es store
        simp only [processFlatEntries, hsf0, hcond, hex, Bool.false_eq_true, ite_true,
          ite_false, if_true, if_false, and_self]
        obtain ⟨img, himg, hsame⟩ := hex
        exact ⟨img, by rw [ht]; exact List.mem_append_left _ himg, hsame⟩
      · obtain ⟨t, ht⟩ := processFlatEntries_append L F es (store ++ [flatRecord L F e])
        refine ⟨flatRecord L F e, ?_, ⟨rfl, rfl, rfl⟩⟩
        simp only [processFlatEntries, hsf0, hcond, hex, Bool.false_eq_true, ite_true,
          ite_false, if_true, if_false, and_self]
        rw [ht]
        exact List.mem_append_left _ (List.mem_append_right _ (List.mem_singleton.mpr rfl))
    · by_cases hcond : e0.isFile = true ∧ isImageName e0.name = true
      · by_cases hex : ∃ img ∈ store, sameTriple img e0.name L "perfect"
        · simpa [processFlatEntries, hsf0, hcond, hex] using ih store hnf' e he' hfi him
        · simpa [processFlatEntries, hsf0, hcond, hex] using
            ih (store ++ [flatRecord L F e0]) hnf' e he' hfi him
      · simpa [processFlatEntries, hsf0, hcond] using ih store hnf' e he' hfi him

lemma processQualityDirs_complete (L F : String) (ld : LabelDirData)
    (hnf : ∀ qp ∈ ld.qualityEntries, ∀ x ∈ qp.2, x.statFails = false) :
    ∀ (qs : List String) (store : List ImageData) (q : String), q ∈ qs →
      ∀ es, ld.qualityEntries.lookup q = some es →
      ∀ e ∈ es, isImageName e.name = true →
      ∃ img ∈ (processQualityDirs L F ld store qs).1, sameTriple img e.name L q := by
  intro qs
  induction qs with
  | nil => intro store q hq; cases hq
  | cons q0 qs ih =>
    intro store q hq es hes e he him
    rcases List.mem_cons.mp hq with rfl | hq'
    · have hesf : ∀ x ∈ es, x.statFails = false := hnf (q, es) (lookup_mem _ _ _ hes)
      cases hpq : processQualityEntries L F q store es with
      | mk s1 flag =>
        have hflag := processQualityEntries_flag L F q es store hesf
        rw [hpq] at hflag
        cases hflag
        have hc := processQualityEntries_complete L F q es store hesf e he him
        rw [hpq] at hc
        obtain ⟨img, himg, hsame⟩ := hc
        obtain ⟨t, ht⟩ := processQualityDirs_append L F ld qs s1
        refine ⟨img, ?_, hsame⟩
        simp only [processQualityDirs, hes, hpq]
        rw [ht]
        exact List.mem_append_left _ himg
    · cases hq0 : ld.qualityEntries.lookup q0 with
      | none =>
        simpa [processQualityDirs, hq0] using ih store q hq' es hes e he him
      | some es0 =>
        have hes0f : ∀ x ∈ es0, x.statFails = false := hnf (q0, es0) (lookup_mem _ _ _ hq0)
        cases hpq : processQualityEntries L F q0 store es0 with
        | mk s1 flag =>
          have hflag := processQualityEntries_flag L F q0 es0 store hes0f
          rw [hpq] at hflag
          cases hflag
          simpa [processQualityDirs, hq0, hpq] using ih s1 q hq' es hes e he him

lemma processLabels_complete_quality (tree : DirTree) (hns : noStatFails tree = true) :
    ∀ (ls : List String) (store : List ImageData) (l : String), l ∈ ls →
      ∀ ld, tree.labelDirs.lookup (getFolderName l) = some ld → ld.isDir = true →
      ∀ q, q ∈ validQualities →
      ∀ es, ld.qualityEntries.lookup q = some es →
      ∀ e ∈ es, isImageName e.name = true →
      ∃ img ∈ (processLabels tree store ls).1, sameTriple img e.name l q := by
  intro ls
  induction ls with
  | nil => intro store l hl; cases hl
  | cons l0 ls ih =>
    intro store l hl ld hld hdir q hq es hes e he him
    rcases List.mem_cons.mp hl with rfl | hl'
    · obtain ⟨hqf, hff⟩ := noStatFails_spec hns _ (lookup_mem _ _ _ hld)
      cases hpq : processQualityDirs l (getFolderName l) ld store validQualities with
      | mk s1 flag1 =>
        have h1 := processQualityDirs_flag l (getFolderName l) ld hqf validQualities store
        rw [hpq] at h1
        cases h1
        have hc := processQualityDirs_complete l (getFolderName l) ld hqf validQualities
          store q hq es hes e he him
        rw [hpq] at hc
        obtain ⟨img, himg, hsame⟩ := hc
        cases hpf : processFlatEntries l (getFolderName l) s1 ld.flatEntries with
        | mk s2 flag2 =>
          have h2 := processFlatEntries_flag l (getFolderName l) ld.flatEntries s1 hff
          rw [hpf] at h2
          cases h2
          obtain ⟨t2, ht2⟩ := processFlatEntries_append l (getFolderName l) ld.flatEntries s1
          rw [hpf] at ht2
          replace ht2 : s2 = s1 ++ t2 := by simpa using ht2
          obtain ⟨t3, ht3⟩ := processLabels_append tree ls s2
          refine ⟨img, ?_, hsame⟩
          simp only [processLabels, hld, hdir, hpq, hpf, if_true]
          rw [ht3, ht2]
          exact List.mem_append_left _ (List.mem_append_left _ himg)
    · cases hld0 : tree.labelDirs.lookup (getFolderName l0) with
      | none =>
        simpa [processLabels, hld0] using ih store l hl' ld hld hdir q hq es hes e he him
      | some ld0 =>
        by_cases hdir0 : ld0.isDir = true
        · obtain ⟨hqf0, hff0⟩ := noStatFails_spec hns _ (lookup_mem _ _ _ hld0)
          cases hpq : processQualityDirs l0 (getFolderName l0) ld0 store validQualities with
          | mk s1 flag1 =>
            have h1 := processQualityDirs_flag l0 (getFolderName l0) ld0 hqf0 validQualities store
            rw [hpq] at h1
            cases h1
            cases hpf : processFlatEntries l0 (getFolderName l0) s1 ld0.flatEntries with
            | mk s2 flag2 =>
              have h2 := processFlatEntries_flag l0 (getFolderName l0) ld0.flatEntries s1 hff0
              rw [hpf] at h2
              cases h2
              simpa [processLabels, hld0, hdir0, hpq, hpf] using
                ih s2 l hl' ld hld hdir q hq es hes e he him
        · simpa [processLabels, hld0, hdir0] using ih store l hl' ld hld hdir q hq es hes e he him

lemma processLabels_complete_flat (tree : DirTree) (hns : noStatFails tree = true) :
    ∀ (ls : List String) (store : List ImageData) (l : String), l ∈ ls →
      ∀ ld, tree.labelDirs.lookup (getFolderName l) = some ld → ld.isDir = true →
      ∀ e ∈ ld.flatEntries, e.isFile = true → isImageName e.name = true →
      ∃ img ∈ (processLabels tree store ls).1, sameTriple img e.name l "perfect" := by
  intro ls
  induction ls with
  | nil => intro store l hl; cases hl
  | cons l0 ls ih =>
    intro store l hl ld hld hdir e he hfi him
    rcases List.mem_cons.mp hl with rfl | hl'
    · obtain ⟨hqf, hff⟩ := noStatFails_spec hns _ (lookup_mem _ _ _ hld)
      cases hpq : processQualityDirs l (getFolderName l) ld store validQualities with
      | mk s1 flag1 =>
        have h1 := processQualityDirs_flag l (getFolderName l) ld hqf validQualities store
        rw [hpq] at h1
        cases h1
        cases hpf : processFlatEntries l (getFolderName l) s1 ld.flatEntries with
        | mk s2 flag2 =>
          have h2 := processFlatEntries_flag l (getFolderName l) ld.flatEntries s1 hff
          rw [hpf] at h2
          cases h2
          have hc := processFlatEntries_complete l (getFolderName l) ld.flatEntries s1
            hff e he hfi him
          rw [hpf] at hc
          obtain ⟨img, himg, hsame⟩ := hc
          obtain ⟨t3, ht3⟩ := processLabels_append tree ls s2
          refine ⟨img, ?_, hsame⟩
          simp only [processLabels, hld, hdir, hpq, hpf, if_true]
          rw [ht3]
          exact List.mem_append_left _ himg
    · cases hld0 : tree.labelDirs.lookup (getFolderName l0) with
      | none =>
        simpa [processLabels, hld0] using ih store l hl' ld hld hdir e he hfi him
      | some ld0 =>
        by_cases hdir0 : ld0.isDir = true
        · obtain ⟨hqf0, hff0⟩ := noStatFails_spec hns _ (lookup_mem _ _ _ hld0)
          cases hpq : processQualityDirs l0 (getFolderName l0) ld0 store validQualities with
          | mk s1 flag1 =>
            have h1 := processQualityDirs_flag l0 (getFolderName l0) ld0 hqf0 validQualities store
            rw [hpq] at h1
            cases h1
            cases hpf : processFlatEntries l0 (getFolderName l0) s1 ld0.flatEntries with
            | mk s2 flag2 =>
              have h2 := processFlatEntries_flag l0 (getFolderName l0) ld0.flatEntries s1 hff0
              rw [hpf] at h2
              cases h2
              simpa [processLabels, hld0, hdir0, hpq, hpf] using
                ih s2 l hl' ld hld hdir e he hfi him
        · simpa [processLabels, hld0, hdir0] using ih store l hl' ld hld hdir e he hfi him

/-! ### Scan lemmas: origin (every new record comes from a scanned file) -/

lemma processQualityEntries_origin (L F Q : String) :
    ∀ (es : List DirEntry) (store : List ImageData) (img : ImageData),
      img ∈ (processQualityEntries L F Q store es).1 →
      img ∈ store ∨ ∃ e ∈ es, isImageName e.name = true ∧ img = qualityRecord L F Q e := by
  intro es
  induction es with
  | nil => intro store img h; left; simpa [processQualityEntries] using h
  | cons e0 es ih =>
    intro store img h
    by_cases him0 : isImageName e0.name = true
    · by_cases hsf0 : e0.statFails = true
      · left; simpa [processQualityEntries, him0, hsf0] using h
      · by_cases hex : ∃ x ∈ store, sameTriple x e0.name L Q
        · have h' : img ∈ (processQualityEntries L F Q store es).1 := by
            simpa [processQualityEntries, him0, hsf0, hex] using h
          rcases ih store img h' with h2 | ⟨e, he, hime, heq⟩
          · exact Or.inl h2
          · exact Or.inr ⟨e, List.mem_cons_of_mem _ he, hime, heq⟩
        · have h' : img ∈ (processQualityEntries L F Q
              (store ++ [qualityRecord L F Q e0]) es).1 := by
            simpa [processQualityEntries, him0, hsf0, hex] using h
          rcases ih _ img h' with h2 | ⟨e, he, hime, heq⟩
          · rcases List.mem_append.mp h2 with h3 | h3
            · exact Or.inl h3
            · exact Or.inr ⟨e0, List.mem_cons_self _ _, him0, List.mem_singleton.mp h3⟩
          · exact Or.inr ⟨e, List.mem_cons_of_mem _ he, hime, heq⟩
    · have h' : img ∈ (processQualityEntries L F Q store es).1 := by
        simpa [processQualityEntries, him0] using h
      rcases ih store img h' with h2 | ⟨e, he, hime, heq⟩
      · exact Or.inl h2
      · exact Or.inr ⟨e, List.mem_cons_of_mem _ he, hime, heq⟩

lemma processFlatEntries_origin (L F : String) :
    ∀ (es : List DirEntry) (store : List ImageData) (img : ImageData),
      img ∈ (processFlatEntries L F store es).1 →
      img ∈ store ∨ ∃ e ∈ es, e.isFile = true ∧ isImageName e.name = true ∧
        img = flatRecord L F e := by
  intro es
  induction es with
  | nil => intro store img h; left; simpa [processFlatEntries] using h
  | cons e0 es ih =>
    intro store img h
    by_cases hsf0 : e0.statFails = true
    · left; simpa [processFlatEntries, hsf0] using h
    · by_cases hcond : e0.isFile = true ∧ isImageName e0.name = true
      · by_cases hex : ∃ x ∈ store, sameTriple x e0.name L "perfect"
        · have h' : img ∈ (processFlatEntries L F store es).1 := by
            simpa [processFlatEntries, hsf0, hcond, hex] using h
          rcases ih store img h' with h2 | ⟨e, he, hf, hime, heq⟩
          · exact Or.inl h2
          · exact Or.inr ⟨e, List.mem_cons_of_mem _ he, hf, hime, heq⟩
        · have h' : img ∈ (processFlatEntries L F (store ++ [flatRecord L F e0]) es).1 := by
            simpa [processFlatEntries, hsf0, hcond, hex] using h
          rcases ih _ img h' with h2 | ⟨e, he, hf, hime, heq⟩
          · rcases List.mem_append.mp h2 with h3 | h3
            · exact Or.inl h3
            · exact Or.inr ⟨e0, List.mem_cons_self _ _, hcond.1, hcond.2,
                List.mem_singleton.mp h3⟩
          · exact Or.inr ⟨e, List.mem_cons_of_mem _ he, hf, hime, heq⟩
      · have h' : img ∈ (processFlatEntries L F store es).1 := by
          simpa [processFlatEntries, hsf0, hcond] using h
        rcases ih store img h' with h2 | ⟨e, he, hf, hime, heq⟩
        · exact Or.inl h2
        · exact Or.inr ⟨e, List.mem_cons_of_mem _ he, hf, hime, heq⟩

lemma processQualityDirs_origin (L F : String) (ld : LabelDirData) :
    ∀ (qs : List String) (store : List ImageData) (img : ImageData),
      img ∈ (processQualityDirs L F ld store qs).1 →
      img ∈ store ∨ ∃ q ∈ qs, ∃ es, ld.qualityEntries.lookup q = some es ∧
        ∃ e ∈ es, isImageName e.name = true ∧ img = qualityRecord L F q e := by
  intro qs
  induction qs with
  | nil => intro store img h; left; simpa [processQualityDirs] using h
  | cons q0 qs ih =>
    intro store img h
    cases hq0 : ld.qualityEntries.lookup q0 with
    | none =>
      have h' : img ∈ (processQualityDirs L F ld store qs).1 := by
        simpa [processQualityDirs, hq0] using h
      rcases ih store img h' with h2 | ⟨q, hq, es, hes, rest⟩
      · exact Or.inl h2
      · exact Or.inr ⟨q, List.mem_cons_of_mem _ hq, es, hes, rest⟩
    | some es0 =>
      cases hpq : processQualityEntries L F q0 store es0 with
      | mk s1 flag =>
        have hmem : img ∈ s1 ∨ img ∈ (processQualityDirs L F ld s1 qs).1 := by
          cases flag with
          | false => exact Or.inl (by simpa [processQualityDirs, hq0, hpq] using h)
          | true => exact Or.inr (by simpa [processQualityDirs, hq0, hpq] using h)
        have hs1 : img ∈ s1 →
            img ∈ store ∨ ∃ q ∈ q0 :: qs, ∃ es, ld.qualityEntries.lookup q = some es ∧
              ∃ e ∈ es, isImageName e.name = true ∧ img = qualityRecord L F q e := by
          intro hin
          have := processQualityEntries_origin L F q0 es0 store img (by rw [hpq]; exact hin)
          rcases this with h2 | ⟨e, he, hime, heq⟩
          · exact Or.inl h2
          · exact Or.inr ⟨q0, List.mem_cons_self _ _, es0, hq0, e, he, hime, heq⟩
        rcases hmem with hin | hin
        · exact hs1 hin
        · rcases ih s1 img hin with h2 | ⟨q, hq, es, hes, rest⟩
          · exact hs1 h2
          · exact Or.inr ⟨q, List.mem_cons_of_mem _ hq, es, hes, rest⟩

lemma processLabels_origin (tree : DirTree) :
    ∀ (ls : List String) (store : List ImageData) (img : ImageData),
      img ∈ (processLabels tree store ls).1 →
      img ∈ store ∨ ∃ l ∈ ls, ∃ ld, tree.labelDirs.lookup (getFolderName l) = some ld ∧
        ld.isDir = true ∧
        ((∃ q ∈ validQualities, ∃ es, ld.qualityEntries.lookup q = some es ∧
            ∃ e ∈ es, isImageName e.name = true ∧ img = qualityRecord l (getFolderName l) q e) ∨
         (∃ e ∈ ld.flatEntries, e.isFile = true ∧ isImageName e.name = true ∧
            img = flatRecord l (getFolderName l) e)) := by
  intro ls
  induction ls with
  | nil => intro store img h; left; simpa [processLabels] using h
  | cons l0 ls ih =>
    intro store img h
    cases hld0 : tree.labelDirs.lookup (getFolderName l0) with
    | none =>
      have h' : img ∈ (processLabels tree store ls).1 := by
        simpa [processLabels, hld0] using h
      rcases ih store img h' with h2 | ⟨l, hl, rest⟩
      · exact Or.inl h2
      · exact Or.inr ⟨l, List.mem_cons_of_mem _ hl, rest⟩
    | some ld0 =>
      by_cases hdir0 : ld0.isDir = true
      · cases hpq : processQualityDirs l0 (getFolderName l0) ld0 store validQualities with
        | mk s1 flag1 =>
          have hs1 : img ∈ s1 →
              img ∈ store ∨ ∃ l ∈ l0 :: ls, ∃ ld,
                tree.labelDirs.lookup (getFolderName l) = some ld ∧ ld.isDir = true ∧
                ((∃ q ∈ validQualities, ∃ es, ld.qualityEntries.lookup q = some es ∧
                    ∃ e ∈ es, isImageName e.name = true ∧
                      img = qualityRecord l (getFolderName l) q e) ∨
                 (∃ e ∈ ld.flatEntries, e.isFile = true ∧ isImageName e.name = true ∧
                    img = flatRecord l (getFolderName l) e)) := by
            intro hin
            have := processQualityDirs_origin l0 (getFolderName l0) ld0 validQualities store img
              (by rw [hpq]; exact hin)
            rcases this with h2 | ⟨q, hq, es, hes, e, he, hime, heq⟩
            · exact Or.inl h2
            · exact Or.inr ⟨l0, List.mem_cons_self _ _, ld0, hld0, hdir0,
                Or.inl ⟨q, hq, es, hes, e, he, hime, heq⟩⟩
          cases flag1 with
          | false => exact hs1 (by simpa [processLabels, hld0, hdir0, hpq] using h)
          | true =>
            cases hpf : processFlatEntries l0 (getFolderName l0) s1 ld0.flatEntries with
            | mk s2 flag2 =>
              have hs2 : img ∈ s2 →
                  img ∈ store ∨ ∃ l ∈ l0 :: ls, ∃ ld,
                    tree.labelDirs.lookup (getFolderName l) = some ld ∧ ld.isDir = true ∧
                    ((∃ q ∈ validQualities, ∃ es, ld.qualityEntries.lookup q = some es ∧
                        ∃ e ∈ es, isImageName e.name = true ∧
                          img = qualityRecord l (getFolderName l) q e) ∨
                     (∃ e ∈ ld.flatEntries, e.isFile = true ∧ isImageName e.name = true ∧
                        img = flatRecord l (getFolderName l) e)) := by
                intro hin
                have := processFlatEntries_origin l0 (getFolderName l0) ld0.flatEntries s1 img
                  (by rw [hpf]; exact hin)
                rcases this with h2 | ⟨e, he, hf, hime, heq⟩
                · exact hs1 h2
                · exact Or.inr ⟨l0, List.mem_cons_self _ _, ld0, hld0, hdir0,
                    Or.inr ⟨e, he, hf, hime, heq⟩⟩
              cases flag2 with
              | false => exact hs2 (by simpa [processLabels, hld0, hdir0, hpq, hpf] using h)
              | true =>
                have h' : img ∈ (processLabels tree s2 ls).1 := by
                  simpa [processLabels, hld0, hdir0, hpq, hpf] using h
                rcases ih s2 img h' with h2 | ⟨l, hl, rest⟩
                · exact hs2 h2
                · exact Or.inr ⟨l, List.mem_cons_of_mem _ hl, rest⟩
      · have h' : img ∈ (processLabels tree store ls).1 := by
          simpa [processLabels, hld0, hdir0] using h
        rcases ih store img h' with h2 | ⟨l, hl, rest⟩
        · exact Or.inl h2
        · exact Or.inr ⟨l, List.mem_cons_of_mem _ hl, rest⟩

lemma load_origin (tree : DirTree) (store : List ImageData) (img : ImageData)
    (h : img ∈ loadImagesFromFilesystem tree store) :
    img ∈ store ∨ qualityFileOnDisk tree img.filename img.label img.quality = true ∨
      (flatFileOnDisk tree img.filename img.label = true ∧ img.quality = "perfect") := by
  unfold loadImagesFromFilesystem at h
  by_cases hr : tree.rootExists = true
  · rw [if_pos hr] at h
    rcases processLabels_origin tree validLabels store img h with h1 | ⟨l, hl, ld, hld, hdir, hcase⟩
    · exact Or.inl h1
    · right
      rcases hcase with ⟨q, hq, es, hes, e, he, him, heq⟩ | ⟨e, he, hfi, him, heq⟩
      · left
        subst heq
        simp only [qualityFileOnDisk, qualityRecord_filename, qualityRecord_label,
          qualityRecord_quality, hld, hdir, hes, Bool.and_eq_true, List.any_eq_true,
          Bool.true_and, true_and]
        refine ⟨⟨?_, ?_⟩, e, he, ?_⟩
        · simpa using hl
        · simpa using hq
        · simp [him]
      · right
        subst heq
        refine ⟨?_, rfl⟩
        simp only [flatFileOnDisk, flatRecord_filename, flatRecord_label, hld, hdir,
          Bool.and_eq_true, List.any_eq_true, Bool.true_and, true_and]
        refine ⟨by simpa using hl, e, he, ?_⟩
        simp [hfi, him]
  · rw [if_neg hr] at h
    exact Or.inl h

/-! ### Scan lemmas: the duplicate check preserves triple uniqueness -/

lemma processQualityEntries_unique (L F Q : String) :
    ∀ (es : List DirEntry) (store : List ImageData), RawUnique store →
      RawUnique (processQualityEntries L F Q store es).1 := by
  intro es
  induction es with
  | nil => intro store h; simpa [processQualityEntries] using h
  | cons e0 es ih =>
    intro store h
    by_cases him0 : isImageName e0.name = true
    · by_cases hsf0 : e0.statFails = true
      · simpa [processQualityEntries, him0, hsf0] using h
      · by_cases hex : ∃ x ∈ store, sameTriple x e0.name L Q
        · simpa [processQualityEntries, him0, hsf0, hex] using ih store h
        · have hnew : RawUnique (store ++ [qualityRecord L F Q e0]) := by
            rw [RawUnique, List.pairwise_append]
            refine ⟨h, List.pairwise_singleton _ _, ?_⟩
            intro a ha b hb
            rw [List.mem_singleton] at hb
            subst hb
            intro hcon
            obtain ⟨h1, h2, h3⟩ := hcon
            simp only [qualityRecord_filename, qualityRecord_label,
              qualityRecord_quality] at h1 h2 h3
            exact hex ⟨a, ha, ⟨h1, h2, h3⟩⟩
          simpa [processQualityEntries, him0, hsf0, hex] using ih _ hnew
    · simpa [processQualityEntries, him0] using ih store h

lemma processFlatEntries_unique (L F : String) :
    ∀ (es : List DirEntry) (store : List ImageData), RawUnique store →
      RawUnique (processFlatEntries L F store es).1 := by
  intro es
  induction es with
  | nil => intro store h; simpa [processFlatEntries] using h
  | cons e0 es ih =>
    intro store h
    by_cases hsf0 : e0.statFails = true
    · simpa [processFlatEntries, hsf0] using h
    · by_cases hcond : e0.isFile = true ∧ isImageName e0.name = true
      · by_cases hex : ∃ x ∈ store, sameTriple x e0.name L "perfect"
        · simpa [processFlatEntries, hsf0, hcond, hex] using ih store h
        · have hnew : RawUnique (store ++ [flatRecord L F e0]) := by
            rw [RawUnique, List.pairwise_append]
            refine ⟨h, List.pairwise_singleton _ _, ?_⟩
            intro a ha b hb
            rw [List.mem_singleton] at hb
            subst hb
            intro hcon
            obtain ⟨h1, h2, h3⟩ := hcon
            simp only [flatRecord_filename, flatRecord_label, flatRecord_quality] at h1 h2 h3
            exact hex ⟨a, ha, ⟨h1, h2, h3⟩⟩
          simpa [processFlatEntries, hsf0, hcond, hex] using ih _ hnew
      · simpa [processFlatEntries, hsf0, hcond] using ih store h

lemma processQualityDirs_unique (L F : String) (ld : LabelDirData) :
    ∀ (qs : List String) (store : List ImageData), RawUnique store →
      RawUnique (processQualityDirs L F ld store qs).1 := by
  intro qs
  induction qs with
  | nil => intro store h; simpa [processQualityDirs] using h
  | cons q0 qs ih =>
    intro store h
    cases hq0 : ld.qualityEntries.lookup q0 with
    | none => simpa [processQualityDirs, hq0] using ih store h
    | some es0 =>
      cases hpq : processQualityEntries L F q0 store es0 with
      | mk s1 flag =>
        have hu1 : RawUnique s1 := by
          have := processQualityEntries_unique L F q0 es0 store h
          rwa [hpq] at this
        cases flag with
        | false => simpa [processQualityDirs, hq0, hpq] using hu1
        | true => simpa [processQualityDirs, hq0, hpq] using ih s1 hu1

lemma processLabels_unique (tree : DirTree) :
    ∀ (ls : List String) (store : List ImageData), RawUnique store →
      RawUnique (processLabels tree store ls).1 := by
  intro ls
  induction ls with
  | nil => intro store h; simpa [processLabels] using h
  | cons l0 ls ih =>
    intro store h
    cases hld0 : tree.labelDirs.lookup (getFolderName l0) with
    | none => simpa [processLabels, hld0] using ih store h
    | some ld0 =>
      by_cases hdir0 : ld0.isDir = true
      · cases hpq : processQualityDirs l0 (getFolderName l0) ld0 store validQualities with
        | mk s1 flag1 =>
          have hu1 : RawUnique s1 := by
            have := processQualityDirs_unique l0 (getFolderName l0) ld0 validQualities store h
            rwa [hpq] at this
          cases flag1 with
          | false => simpa [processLabels, hld0, hdir0, hpq] using hu1
          | true =>
            cases hpf : processFlatEntries l0 (getFolderName l0) s1 ld0.flatEntries with
            | mk s2 flag2 =>
              have hu2 : RawUnique s2 := by
                have := processFlatEntries_unique l0 (getFolderName l0) ld0.flatEntries s1 hu1
                rwa [hpf] at this
              cases flag2 with
              | false => simpa [processLabels, hld0, hdir0, hpq, hpf] using hu2
              | true => simpa [processLabels, hld0, hdir0, hpq, hpf] using ih s2 hu2
      · simpa [processLabels, hld0, hdir0] using ih store h

lemma load_unique (tree : DirTree) (store : List ImageData) (h : RawUnique store) :
    RawUnique (loadImagesFromFilesystem tree store) := by
  unfold loadImagesFromFilesystem
  by_cases hr : tree.rootExists = true
  · simpa [hr] using processLabels_unique tree validLabels store h
  · simpa [hr] using h

lemma processQualityEntries_cons_skip (L F Q : String) (e : DirEntry) (es : List DirEntry)
    (store : List ImageData) (him : isImageName e.name = true) (hsf : e.statFails = false)
    (hex : ∃ x ∈ store, sameTriple x e.name L Q) :
    processQualityEntries L F Q store (e :: es) = processQualityEntries L F Q store es := by
  simp [processQualityEntries, him, hsf, hex]

lemma processFlatEntries_cons_skip (L F : String) (e : DirEntry) (es : List DirEntry)
    (store : List ImageData) (hsf : e.statFails = false)
    (hcond : e.isFile = true ∧ isImageName e.name = true)
    (hex : ∃ x ∈ store, sameTriple x e.name L "perfect") :
    processFlatEntries L F store (e :: es) = processFlatEntries L F store es := by
  simp [processFlatEntries, hsf, hcond, hex]

/-! ### Scan lemmas: rerunning the scan on its own output is the identity -/

lemma processQualityEntries_stable (L F Q : String) :
    ∀ (es : List DirEntry) (store s1 : List ImageData) (flag : Bool),
      processQualityEntries L F Q store es = (s1, flag) →
      ∀ t, processQualityEntries L F Q (s1 ++ t) es = (s1 ++ t, flag) := by
  intro es
  induction es with
  | nil =>
    intro store s1 flag h t
    rw [show processQualityEntries L F Q store [] = (store, true) from rfl] at h
    cases h
    rfl
  | cons e0 es ih =>
    intro store s1 flag h t
    by_cases him0 : isImageName e0.name = true
    · by_cases hsf0 : e0.statFails = true
      · rw [show processQualityEntries L F Q store (e0 :: es) = (store, false) from by
          simp [processQualityEntries, him0, hsf0]] at h
        cases h
        simp [processQualityEntries, him0, hsf0]
      · by_cases hex : ∃ x ∈ store, sameTriple x e0.name L Q
        · rw [show processQualityEntries L F Q store (e0 :: es) =
              processQualityEntries L F Q store es from by
            simp [processQualityEntries, him0, hsf0, hex]] at h
          have hmem : ∃ x ∈ s1 ++ t, sameTriple x e0.name L Q := by
            obtain ⟨x, hx, hsx⟩ := hex
            obtain ⟨t1, ht1⟩ := processQualityEntries_append L F Q es store
            rw [h] at ht1
            replace ht1 : s1 = store ++ t1 := by simpa using ht1
            exact ⟨x, by rw [ht1]; exact List.mem_append_left _ (List.mem_append_left _ hx), hsx⟩
          rw [processQualityEntries_cons_skip L F Q e0 es (s1 ++ t) him0
            (by simpa using hsf0) hmem]
          exact ih store s1 flag h t
        · rw [show processQualityEntries L F Q store (e0 :: es) =
              processQualityEntries L F Q (store ++ [qualityRecord L F Q e0]) es from by
            simp [processQualityEntries, him0, hsf0, hex]] at h
          have hmem : ∃ x ∈ s1 ++ t, sameTriple x e0.name L Q := by
            obtain ⟨t1, ht1⟩ :=
              processQualityEntries_append L F Q es (store ++ [qualityRecord L F Q e0])
            rw [h] at ht1
            replace ht1 : s1 = (store ++ [qualityRecord L F Q e0]) ++ t1 := by simpa using ht1
            refine ⟨qualityRecord L F Q e0, ?_, ⟨rfl, rfl, rfl⟩⟩
            rw [ht1]
            exact List.mem_append_left _ (List.mem_append_left _
              (List.mem_append_right _ (List.mem_singleton.mpr rfl)))
          rw [processQualityEntries_cons_skip L F Q e0 es (s1 ++ t) him0
            (by simpa using hsf0) hmem]
          exact ih _ s1 flag h t
    · rw [show processQualityEntries L F Q store (e0 :: es) =
          processQualityEntries L F Q store es from by
        simp [processQualityEntries, him0]] at h
      rw [show processQualityEntries L F Q (s1 ++ t) (e0 :: es) =
          processQualityEntries L F Q (s1 ++ t) es from by
        simp [processQualityEntries, him0]]
      exact ih store s1 flag h t

lemma processFlatEntries_stable (L F : String) :
    ∀ (es : List DirEntry) (store s1 : List ImageData) (flag : Bool),
      processFlatEntries L F store es = (s1, flag) →
      ∀ t, processFlatEntries L F (s1 ++ t) es = (s1 ++ t, flag) := by
  intro es
  induction es with
  | nil =>
    intro store s1 flag h t
    rw [show processFlatEntries L F store [] = (store, true) from rfl] at h
    cases h
    rfl
  | cons e0 es ih =>
    intro store s1 flag h t
    by_cases hsf0 : e0.statFails = true
    · rw [show processFlatEntries L F store (e0 :: es) = (store, false) from by
        simp [processFlatEntries, hsf0]] at h
      cases h
      simp [processFlatEntries, hsf0]
    · by_cases hcond : e0.isFile = true ∧ isImageName e0.name = true
      · by_cases hex : ∃ x ∈ store, sameTriple x e0.name L "perfect"
        · rw [show processFlatEntries L F store (e0 :: es) =
              processFlatEntries L F store es from by
            simp [processFlatEntries, hsf0, hcond, hex]] at h
          have hmem : ∃ x ∈ s1 ++ t, sameTriple x e0.name L "perfect" := by
            obtain ⟨x, hx, hsx⟩ := hex
            obtain ⟨t1, ht1⟩ := processFlatEntries_append L F es store
            rw [h] at ht1
            replace ht1 : s1 = store ++ t1 := by simpa using ht1
            exact ⟨x, by rw [ht1]; exact List.mem_append_left _ (List.mem_append_left _ hx), hsx⟩
          rw [processFlatEntries_cons_skip L F e0 es (s1 ++ t) (by simpa using hsf0) hcond hmem]
          exact ih store s1 flag h t
        · rw [show processFlatEntries L F store (e0 :: es) =
              processFlatEntries L F (store ++ [flatRecord L F e0]) es from by
            simp [processFlatEntries, hsf0, hcond, hex]] at h
          have hmem : ∃ x ∈ s1 ++ t, sameTriple x e0.name L "perfect" := by
            obtain ⟨t1, ht1⟩ := processFlatEntries_append L F es (store ++ [flatRecord L F e0])
            rw [h] at ht1
            replace ht1 : s1 = (store ++ [flatRecord L F e0]) ++ t1 := by simpa using ht1
            refine ⟨flatRecord L F e0, ?_, ⟨rfl, rfl, rfl⟩⟩
            rw [ht1]
            exact List.mem_append_left _ (List.mem_append_left _
              (List.mem_append_right _ (List.mem_singleton.mpr rfl)))
          rw [processFlatEntries_cons_skip L F e0 es (s1 ++ t) (by simpa using hsf0) hcond hmem]
          exact ih _ s1 flag h t
      · rw [show processFlatEntries L F store (e0 :: es) =
            processFlatEntries L F store es from by
          simp [processFlatEntries, hsf0, hcond]] at h
        rw [show processFlatEntries L F (s1 ++ t) (e0 :: es) =
            processFlatEntries L F (s1 ++ t) es from by
          simp [processFlatEntries, hsf0, hcond]]
        exact ih store s1 flag h t

lemma processQualityDirs_stable (L F : String) (ld : LabelDirData) :
    ∀ (qs : List String) (store s1 : List ImageData) (flag : Bool),
      processQualityDirs L F ld store qs = (s1, flag) →
      ∀ t, processQualityDirs L F ld (s1 ++ t) qs = (s1 ++ t, flag) := by
  intro qs
  induction qs with
  | nil =>
    intro store s1 flag h t
    rw [show processQualityDirs L F ld store [] = (store, true) from rfl] at h
    cases h
    rfl
  | cons q0 qs ih =>
    intro store s1 flag h t
    cases hq0 : ld.qualityEntries.lookup q0 with
    | none =>
      rw [show processQualityDirs L F ld store (q0 :: qs) =
          processQualityDirs L F ld store qs from by simp [processQualityDirs, hq0]] at h
      rw [show processQualityDirs L F ld (s1 ++ t) (q0 :: qs) =
          processQualityDirs L F ld (s1 ++ t) qs from by simp [processQualityDirs, hq0]]
      exact ih store s1 flag h t
    | some es0 =>
      cases hpq : processQualityEntries L F q0 store es0 with
      | mk sA flagA =>
        cases flagA with
        | false =>
          rw [show processQualityDirs L F ld store (q0 :: qs) = (sA, false) from by
            simp [processQualityDirs, hq0, hpq]] at h
          injection h with hs hf
          rw [← hs, ← hf]
          have hre := processQualityEntries_stable L F q0 es0 store sA false hpq t
          simp [processQualityDirs, hq0, hre]
        | true =>
          rw [show processQualityDirs L F ld store (q0 :: qs) =
              processQualityDirs L F ld sA qs from by simp [processQualityDirs, hq0, hpq]] at h
          obtain ⟨tA, htA⟩ := processQualityDirs_append L F ld qs sA
          rw [h] at htA
          replace htA : s1 = sA ++ tA := by simpa using htA
          have hre := processQualityEntries_stable L F q0 es0 store sA true hpq (tA ++ t)
          rw [← List.append_assoc, ← htA] at hre
          simp only [processQualityDirs, hq0, hre]
          exact ih sA s1 flag h t

lemma processLabels_stable (tree : DirTree) :
    ∀ (ls : List String) (store s1 : List ImageData) (flag : Bool),
      processLabels tree store ls = (s1, flag) →
      ∀ t, processLabels tree (s1 ++ t) ls = (s1 ++ t, flag) := by
  intro ls
  induction ls with
  | nil =>
    intro store s1 flag h t
    rw [show processLabels tree store [] = (store, true) from rfl] at h
    cases h
    rfl
  | cons l0 ls ih =>
    intro store s1 flag h t
    cases hld0 : tree.labelDirs.lookup (getFolderName l0) with
    | none =>
      rw [show processLabels tree store (l0 :: ls) = processLabels tree store ls from by
        simp [processLabels, hld0]] at h
      rw [show processLabels tree (s1 ++ t) (l0 :: ls) = processLabels tree (s1 ++ t) ls from by
        simp [processLabels, hld0]]
      exact ih store s1 flag h t
    | some ld0 =>
      by_cases hdir0 : ld0.isDir = true
      · cases hpq : processQualityDirs l0 (getFolderName l0) ld0 store validQualities with
        | mk sA flagA =>
          cases flagA with
          | false =>
            rw [show processLabels tree store (l0 :: ls) = (sA, false) from by
              simp [processLabels, hld0, hdir0, hpq]] at h
            injection h with hs hf
            rw [← hs, ← hf]
            have hre := processQualityDirs_stable l0 (getFolderName l0) ld0 validQualities
              store sA false hpq t
            simp [processLabels, hld0, hdir0, hre]
          | true =>
            cases hpf : processFlatEntries l0 (getFolderName l0) sA ld0.flatEntries with
            | mk sB flagB =>
              cases flagB with
              | false =>
                rw [show processLabels tree store (l0 :: ls) = (sB, false) from by
                  simp [processLabels, hld0, hdir0, hpq, hpf]] at h
                injection h with hs hf
                rw [← hs, ← hf]
                obtain ⟨tB, htB⟩ :=
                  processFlatEntries_append l0 (getFolderName l0) ld0.flatEntries sA
                rw [hpf] at htB
                replace htB : sB = sA ++ tB := by simpa using htB
                have hreQ := processQualityDirs_stable l0 (getFolderName l0) ld0 validQualities
                  store sA true hpq (tB ++ t)
                rw [← List.append_assoc, ← htB] at hreQ
                have hreF := processFlatEntries_stable l0 (getFolderName l0)
                  ld0.flatEntries sA sB false hpf t
                simp [processLabels, hld0, hdir0, hreQ, hreF]
              | true =>
                rw [show processLabels tree store (l0 :: ls) = processLabels tree sB ls from by
                  simp [processLabels, hld0, hdir0, hpq, hpf]] at h
                obtain ⟨tB, htB⟩ :=
                  processFlatEntries_append l0 (getFolderName l0) ld0.flatEntries sA
                rw [hpf] at htB
                replace htB : sB = sA ++ tB := by simpa using htB
                obtain ⟨tC, htC⟩ := processLabels_append tree ls sB
                rw [h] at htC
                replace htC : s1 = sB ++ tC := by simpa using htC
                have hreQ := processQualityDirs_stable l0 (getFolderName l0) ld0 validQualities
                  store sA true hpq (tB ++ (tC ++ t))
                rw [← List.append_assoc, ← htB, ← List.append_assoc, ← htC] at hreQ
                have hreF := processFlatEntries_stable l0 (getFolderName l0)
                  ld0.flatEntries sA sB true hpf (tC ++ t)
                rw [← List.append_assoc, ← htC] at hreF
                simp only [processLabels, hld0, hdir0, hreQ, hreF]
                exact ih sB s1 flag h t
      · rw [show processLabels tree store (l0 :: ls) = processLabels tree store ls from by
          simp [processLabels, hld0, hdir0]] at h
        rw [show processLabels tree (s1 ++ t) (l0 :: ls) =
            processLabels tree (s1 ++ t) ls from by simp [processLabels, hld0, hdir0]]
        exact ih store s1 flag h t

lemma load_idem (tree : DirTree) (store : List ImageData) :
    loadImagesFromFilesystem tree (loadImagesFromFilesystem tree store) =
      loadImagesFromFilesystem tree store := by
  unfold loadImagesFromFilesystem
  by_cases hr : tree.rootExists = true
  · simp only [hr, if_true, if_pos]
    cases hpl : processLabels tree store validLabels with
    | mk s1 flag =>
      have := processLabels_stable tree validLabels store s1 flag hpl []
      rw [List.append_nil] at this
      simp [this]
  · simp [hr]

/-! ### Store invariants over reachable states -/

@[simp] lemma addRecord_filename (l q i : String) (n : Nat) :
    (addRecord l q i n).filename = l ++ "_" ++ toString n ++ ".png" := rfl

@[simp] lemma addRecord_label (l q i : String) (n : Nat) :
    (addRecord l q i n).label = l := rfl

@[simp] lemma addRecord_quality (l q i : String) (n : Nat) :
    (addRecord l q i n).quality = q := rfl

lemma addImage_store (fs : FileSys) (s : List ImageData) (label quality image : String)
    (now : Nat) :
    (addImage ⟨fs, s⟩ label quality image now).1.store =
      if label ∈ validLabels ∧ quality ∈ validQualities then
        s ++ [addRecord label quality image now]
      else s := by
  by_cases hl : label ∈ validLabels
  · by_cases hq : quality ∈ validQualities
    · simp [addImage, hl, hq, addRecord]
    · simp [addImage, hl, hq]
  · simp [addImage, hl]

lemma normQuality_of_valid {q : String} (hq : q ∈ validQualities) : normQuality q = q := by
  have : q ≠ "" := by
    intro h
    subst h
    simp [validQualities] at hq
  simp [normQuality, this]

lemma qualityValid_load {tree : DirTree} {s : List ImageData} (h : QualityValid s) :
    QualityValid (loadImagesFromFilesystem tree s) := by
  intro img himg
  rcases load_origin tree s img himg with h1 | h2 | ⟨h3, hq⟩
  · exact h img h1
  · simp only [qualityFileOnDisk, Bool.and_eq_true] at h2
    obtain ⟨⟨hcl, hcq⟩, -⟩ := h2
    exact ⟨by simpa using hcl, by simpa using hcq⟩
  · simp only [flatFileOnDisk, Bool.and_eq_true] at h3
    refine ⟨by simpa using h3.1, ?_⟩
    rw [hq]
    decide
lemma qualityValid_add {fs : FileSys} {s : List ImageData} (label quality image : String)
    (now : Nat) (h : QualityValid s) :
    QualityValid (addImage ⟨fs, s⟩ label quality image now).1.store := by
  rw [addImage_store]
  by_cases hv : label ∈ validLabels ∧ quality ∈ validQualities
  · rw [if_pos hv]
    intro img himg
    rcases List.mem_append.mp himg with h1 | h1
    · exact h img h1
    · rw [List.mem_singleton] at h1
      subst h1
      simpa using hv
  · rw [if_neg hv]
    exact h

lemma qualityValid_delete {fs : FileSys} {s : List ImageData} (f l q : String)
    (h : QualityValid s) :
    QualityValid (deleteImage ⟨fs, s⟩ f l q).1.store := by
  rw [deleteImage_store]
  intro img himg
  exact h img (List.mem_filter.mp himg).1

lemma reachable_valid : ∀ {s : List ImageData}, Reachable s → QualityValid s := by
  intro s h
  induction h with
  | init => intro img himg; cases himg
  | scan tree _ ih => exact qualityValid_load ih
  | add fs label quality image now _ ih => exact qualityValid_add label quality image now ih
  | del fs f l q _ ih => exact qualityValid_delete f l q ih

lemma reachableFresh_wf : ∀ {s : List ImageData}, ReachableFresh s →
    QualityValid s ∧ RawUnique s := by
  intro s h
  induction h with
  | init => exact ⟨fun img himg => absurd himg (List.not_mem_nil img), List.Pairwise.nil⟩
  | scan tree _ ih => exact ⟨qualityValid_load ih.1, load_unique _ _ ih.2⟩
  | add fs label quality image now hr hfresh ih =>
    refine ⟨qualityValid_add label quality image now ih.1, ?_⟩
    rw [RawUnique, addImage_store]
    by_cases hv : label ∈ validLabels ∧ quality ∈ validQualities
    · rw [if_pos hv, List.pairwise_append]
      refine ⟨ih.2, List.pairwise_singleton _ _, ?_⟩
      intro a ha b hb
      rw [List.mem_singleton] at hb
      subst hb
      intro hcon
      obtain ⟨h1, h2, h3⟩ := hcon
      simp only [addRecord_filename, addRecord_label, addRecord_quality] at h1 h2 h3
      exact hfresh a ha ⟨h1, h2, h3⟩
    · rw [if_neg hv]
      exact ih.2
  | del fs f l q _ ih =>
    refine ⟨qualityValid_delete f l q ih.1, ?_⟩
    rw [RawUnique, deleteImage_store]
    exact List.Pairwise.sublist (List.filter_sublist _) ih.2

lemma normUnique_of_rawUnique {s : List ImageData} (hv : QualityValid s) (hu : RawUnique s) :
    NormUnique s := by
  rw [NormUnique]
  refine List.Pairwise.imp_of_mem ?_ hu
  intro a b ha hb hr hcon
  obtain ⟨h1, h2, h3⟩ := hcon
  apply hr
  refine ⟨h1, h2, ?_⟩
  rw [normQuality_of_valid (hv a ha).2, normQuality_of_valid (hv b hb).2] at h3
  exact h3

/-- C1 fails as stated: `addImage` appends without any duplicate check, so
two adds with the same `Date.now()` value (a same-millisecond collision, as
the spec's §9 itself notes) append two records with the identical
(filename, label, quality) triple. -/
theorem claim_C1_counterexample :
    (addImage (addImage ⟨⟨[], []⟩, []⟩ "circle" "perfect" "im" 5).1
        "circle" "perfect" "im" 5).1.store =
      [addRecord "circle" "perfect" "im" 5, addRecord "circle" "perfect" "im" 5] ∧
    ¬ NormUnique (addImage (addImage ⟨⟨[], []⟩, []⟩ "circle" "perfect" "im" 5).1
        "circle" "perfect" "im" 5).1.store := by
  constructor
  · decide
  · rw [NormUnique]
    decide

/-- C1 (amended): every state reachable with fresh add-filenames satisfies
the identity invariant (no two records share the (filename, label,
normalized-quality) triple), and the reconciliation scan preserves triple
uniqueness unconditionally whenever it appends. -/
theorem claim_C1_identity_invariant :
    (∀ s, ReachableFresh s → NormUnique s) ∧
    (∀ (tree : DirTree) (s : List ImageData), RawUnique s →
      RawUnique (loadImagesFromFilesystem tree s)) := by
  constructor
  · intro s h
    obtain ⟨hv, hu⟩ := reachableFresh_wf h
    exact normUnique_of_rawUnique hv hu
  · intro tree s h
    exact load_unique tree s h

/-- C1 witness: a concrete reachable state (one add from the empty store)
and a concrete scan. -/
theorem claim_C1_witness :
    NormUnique (addImage ⟨⟨[], []⟩, []⟩ "circle" "perfect" "im" 5).1.store ∧
    RawUnique (loadImagesFromFilesystem
      ⟨true, [("circles", ⟨true, [("medium", [⟨"c_7.png", true, false, 3⟩])],
        [⟨"old.jpg", true, false, 42⟩]⟩)]⟩ []) := by
  constructor
  · exact claim_C1_identity_invariant.1 _
      (ReachableFresh.add ⟨[], []⟩ "circle" "perfect" "im" 5 ReachableFresh.init
        (fun img himg => absurd himg (List.not_mem_nil img)))
  · exact claim_C1_identity_invariant.2 _ [] List.Pairwise.nil

/-- C10: in every reachable state, every record's label is one of the three
valid labels and every record's quality one of the three valid qualities. -/
theorem claim_C10_valid_sets : ∀ s, Reachable s → QualityValid s :=
  fun _ h => reachable_valid h

/-- C10 witness: a concrete reachable state. -/
theorem claim_C10_witness :
    QualityValid (addImage ⟨⟨[], []⟩, []⟩ "circle" "perfect" "im" 5).1.store :=
  claim_C10_valid_sets _ (Reachable.add ⟨[], []⟩ "circle" "perfect" "im" 5 Reachable.init)

/-- C9: the three query filters return exactly the records satisfying the
corresponding equality predicate, as sublists (preserving insertion order);
they validate nothing, and on any reachable store an unknown label or
quality yields no matches. -/
theorem claim_C9_query_filters (s : List ImageData) (label quality : String) :
    (∀ img, img ∈ getImagesByLabel s label ↔ img ∈ s ∧ img.label = label) ∧
    (getImagesByLabel s label).Sublist s ∧
    (∀ img, img ∈ getImagesByQuality s quality ↔ img ∈ s ∧ img.quality = quality) ∧
    (getImagesByQuality s quality).Sublist s ∧
    (∀ img, img ∈ getImagesByLabelAndQuality s label quality ↔
      img ∈ s ∧ img.label = label ∧ img.quality = quality) ∧
    (getImagesByLabelAndQuality s label quality).Sublist s ∧
    (Reachable s → label ∉ validLabels → getImagesByLabel s label = []) ∧
    (Reachable s → quality ∉ validQualities → getImagesByQuality s quality = []) ∧
    (Reachable s → label ∉ validLabels ∨ quality ∉ validQualities →
      getImagesByLabelAndQuality s label quality = []) := by
  refine ⟨?_, List.filter_sublist _, ?_, List.filter_sublist _, ?_, List.filter_sublist _,
    ?_, ?_, ?_⟩
  · intro img; simp [getImagesByLabel, List.mem_filter]
  · intro img; simp [getImagesByQuality, List.mem_filter]
  · intro img; simp [getImagesByLabelAndQuality, List.mem_filter]
  · intro hr hl
    rw [getImagesByLabel, List.filter_eq_nil_iff]
    intro a ha
    simp only [decide_eq_true_iff]
    intro heq
    exact hl (heq ▸ (reachable_valid hr a ha).1)
  · intro hr hq
    rw [getImagesByQuality, List.filter_eq_nil_iff]
    intro a ha
    simp only [decide_eq_true_iff]
    intro heq
    exact hq (heq ▸ (reachable_valid hr a ha).2)
  · intro hr hor
    rw [getImagesByLabelAndQuality, List.filter_eq_nil_iff]
    intro a ha
    simp only [decide_eq_true_iff]
    intro heq
    rcases hor with hl | hq
    · exact hl (heq.1 ▸ (reachable_valid hr a ha).1)
    · exact hq (heq.2 ▸ (reachable_valid hr a ha).2)

/-- C9 witness: unknown label/quality on a concrete reachable store. -/
theorem claim_C9_witness :
    getImagesByLabel (addImage ⟨⟨[], []⟩, []⟩ "circle" "perfect" "im" 5).1.store
        "hexagon" = [] ∧
    getImagesByQuality (addImage ⟨⟨[], []⟩, []⟩ "circle" "perfect" "im" 5).1.store
        "shiny" = [] ∧
    getImagesByLabelAndQuality (addImage ⟨⟨[], []⟩, []⟩ "circle" "perfect" "im" 5).1.store
        "hexagon" "shiny" = [] := by
  have hr : Reachable (addImage ⟨⟨[], []⟩, []⟩ "circle" "perfect" "im" 5).1.store :=
    Reachable.add ⟨[], []⟩ "circle" "perfect" "im" 5 Reachable.init
  have h := claim_C9_query_filters
    (addImage ⟨⟨[], []⟩, []⟩ "circle" "perfect" "im" 5).1.store "hexagon" "shiny"
  exact ⟨h.2.2.2.2.2.2.1 hr (by decide), h.2.2.2.2.2.2.2.1 hr (by decide),
    h.2.2.2.2.2.2.2.2 hr (Or.inl (by decide))⟩

/-- C6: `getAllImages` returns a copy containing every record of the store
(a permutation — the store itself is untouched, the model being pure),
ordered by timestamp descending; when the store's timestamps are strictly
increasing the result is strictly descending. -/
theorem claim_C6_getAll_sorted (store : List ImageData) :
    (getAllImages store).Perm store ∧
    (getAllImages store).Pairwise (fun a b => b.timestamp ≤ a.timestamp) ∧
    (store.Pairwise (fun a b => a.timestamp < b.timestamp) →
      (getAllImages store).Pairwise (fun a b => b.timestamp < a.timestamp)) := by
  have hperm : (getAllImages store).Perm store := List.mergeSort_perm store _
  have htrans : ∀ a b c : ImageData,
      (fun a b : ImageData => decide (b.timestamp ≤ a.timestamp)) a b = true →
      (fun a b : ImageData => decide (b.timestamp ≤ a.timestamp)) b c = true →
      (fun a b : ImageData => decide (b.timestamp ≤ a.timestamp)) a c = true := by
    intro a b c hab hbc
    simp only [decide_eq_true_iff] at hab hbc ⊢
    exact Nat.le_trans hbc hab
  have htotal : ∀ a b : ImageData,
      ((fun a b : ImageData => decide (b.timestamp ≤ a.timestamp)) a b ||
       (fun a b : ImageData => decide (b.timestamp ≤ a.timestamp)) b a) = true := by
    intro a b
    simp only [Bool.or_eq_true, decide_eq_true_iff]
    exact Nat.le_total b.timestamp a.timestamp
  have hsort : (getAllImages store).Pairwise (fun a b => b.timestamp ≤ a.timestamp) := by
    have h := @List.sorted_mergeSort ImageData
      (fun a b : ImageData => decide (b.timestamp ≤ a.timestamp)) htrans htotal store
    exact h.imp (fun hab => by simpa using hab)
  refine ⟨hperm, hsort, ?_⟩
  intro hinc
  have hndstore : (store.map (fun img => img.timestamp)).Nodup := by
    have h : (store.map (fun img => img.timestamp)).Pairwise (· < ·) :=
      List.pairwise_map.mpr hinc
    exact h.imp Nat.ne_of_lt
  have hnd : ((getAllImages store).map (fun img => img.timestamp)).Nodup :=
    ((hperm.map (fun img => img.timestamp)).symm).nodup hndstore
  have hne : (getAllImages store).Pairwise (fun a b => a.timestamp ≠ b.timestamp) :=
    List.pairwise_map.mp hnd
  exact (hsort.and hne).imp (fun h => Nat.lt_of_le_of_ne h.1 (fun hh => h.2 hh.symm))

/-- C6 witness: two records at increasing timestamps come back strictly
descending. -/
theorem claim_C6_witness :
    (getAllImages [⟨"a", "circle", "perfect", "", 1, "p"⟩,
        ⟨"b", "circle", "perfect", "", 2, "q"⟩]).Pairwise
      (fun a b => b.timestamp < a.timestamp) :=
  (claim_C6_getAll_sorted _).2.2 (by decide)

/-- C7 fails as stated: a legacy flat file whose name coincides with a
same-label `perfect/` file yields a single record for two on-disk image
files (the backward-compatibility pass is deduplicated away), so the scan
does not produce "exactly one record per on-disk image file". -/
theorem claim_C7_counterexample :
    specImageFileCount
        ⟨true, [("circles", ⟨true, [("perfect", [⟨"a_1.png", true, false, 10⟩])],
          [⟨"perfect", false, false, 0⟩, ⟨"a_1.png", true, false, 20⟩]⟩)]⟩ = 2 ∧
    (loadImagesFromFilesystem
        ⟨true, [("circles", ⟨true, [("perfect", [⟨"a_1.png", true, false, 10⟩])],
          [⟨"perfect", false, false, 0⟩, ⟨"a_1.png", true, false, 20⟩]⟩)]⟩ []).length = 1 := by
  constructor
  · decide
  · decide

/-- C7 (amended): the reconciliation scan produces exactly one record per
distinct on-disk (filename, label, quality) triple — quality taken from the
quality subdirectory name, or `"perfect"` for flat legacy files: it
preserves triple uniqueness, on an error-free tree every on-disk image file
has a matching record, every new record originates in an on-disk file, and
re-running the scan on an already-populated store changes nothing. -/
theorem claim_C7_scan_reconciliation (tree : DirTree) (store : List ImageData) :
    loadImagesFromFilesystem tree (loadImagesFromFilesystem tree store) =
        loadImagesFromFilesystem tree store ∧
    (RawUnique store → RawUnique (loadImagesFromFilesystem tree store)) ∧
    (noStatFails tree = true → tree.rootExists = true →
      (∀ f l q, qualityFileOnDisk tree f l q = true →
        ∃ img ∈ loadImagesFromFilesystem tree store, sameTriple img f l q) ∧
      (∀ f l, flatFileOnDisk tree f l = true →
        ∃ img ∈ loadImagesFromFilesystem tree store, sameTriple img f l "perfect")) ∧
    (∀ img ∈ loadImagesFromFilesystem tree store, img ∈ store ∨
      qualityFileOnDisk tree img.filename img.label img.quality = true ∨
      (flatFileOnDisk tree img.filename img.label = true ∧ img.quality = "perfect")) := by
  refine ⟨load_idem tree store, fun h => load_unique tree store h, ?_, load_origin tree store⟩
  intro hns hr
  constructor
  · intro f l q hq
    simp only [qualityFileOnDisk, Bool.and_eq_true] at hq
    obtain ⟨⟨hcl, hcq⟩, hrest⟩ := hq
    cases hld : tree.labelDirs.lookup (getFolderName l) with
    | none => rw [hld] at hrest; cases hrest
    | some ld =>
      rw [hld, Bool.and_eq_true] at hrest
      obtain ⟨hdir, hq2⟩ := hrest
      cases hes : ld.qualityEntries.lookup q with
      | none => rw [hes] at hq2; cases hq2
      | some es =>
        rw [hes, List.any_eq_true] at hq2
        obtain ⟨e, he, he2⟩ := hq2
        simp only [Bool.and_eq_true, beq_iff_eq] at he2
        obtain ⟨hname, him⟩ := he2
        unfold loadImagesFromFilesystem
        rw [if_pos hr]
        have hc := processLabels_complete_quality tree hns validLabels store l
          (by simpa using hcl) ld hld hdir q (by simpa using hcq) es hes e he him
        rw [hname] at hc
        exact hc
  · intro f l hq
    simp only [flatFileOnDisk, Bool.and_eq_true] at hq
    obtain ⟨hcl, hrest⟩ := hq
    cases hld : tree.labelDirs.lookup (getFolderName l) with
    | none => rw [hld] at hrest; cases hrest
    | some ld =>
      rw [hld, Bool.and_eq_true] at hrest
      obtain ⟨hdir, hq2⟩ := hrest
      rw [List.any_eq_true] at hq2
      obtain ⟨e, he, he2⟩ := hq2
      simp only [Bool.and_eq_true, beq_iff_eq] at he2
      obtain ⟨⟨hname, hfi⟩, him⟩ := he2
      unfold loadImagesFromFilesystem
      rw [if_pos hr]
      have hc := processLabels_complete_flat tree hns validLabels store l
        (by simpa using hcl) ld hld hdir e he hfi him
      rw [hname] at hc
      exact hc

/-- C7 witness: a concrete failure-free tree with one quality-subdirectory
file and one flat legacy file. -/
theorem claim_C7_witness :
    RawUnique (loadImagesFromFilesystem
        ⟨true, [("circles", ⟨true, [("medium", [⟨"c_7.png", true, false, 3⟩])],
          [⟨"old.jpg", true, false, 42⟩]⟩)]⟩ []) ∧
    (∃ img ∈ loadImagesFromFilesystem
        ⟨true, [("circles", ⟨true, [("medium", [⟨"c_7.png", true, false, 3⟩])],
          [⟨"old.jpg", true, false, 42⟩]⟩)]⟩ [],
      sameTriple img "c_7.png" "circle" "medium") ∧
    (∃ img ∈ loadImagesFromFilesystem
        ⟨true, [("circles", ⟨true, [("medium", [⟨"c_7.png", true, false, 3⟩])],
          [⟨"old.jpg", true, false, 42⟩]⟩)]⟩ [],
      sameTriple img "old.jpg" "circle" "perfect") := by
  have h := claim_C7_scan_reconciliation
    ⟨true, [("circles", ⟨true, [("medium", [⟨"c_7.png", true, false, 3⟩])],
      [⟨"old.jpg", true, false, 42⟩]⟩)]⟩ []
  exact ⟨h.2.1 List.Pairwise.nil,
    (h.2.2.1 (by decide) rfl).1 "c_7.png" "circle" "medium" (by decide),
    (h.2.2.1 (by decide) rfl).2 "old.jpg" "circle" (by decide)⟩

/-- C8: when the root directory does not exist the scan is a no-op leaving
the store untouched; and in every case — filesystem errors included — the
scan only appends, leaving the store a prefix of the result (the
partially-populated state it had reached). -/
theorem claim_C8_scan_failure (tree : DirTree) (store : List ImageData) :
    (tree.rootExists = false → loadImagesFromFilesystem tree store = store) ∧
    (∃ t, loadImagesFromFilesystem tree store = store ++ t) := by
  constructor
  · intro hr
    simp [loadImagesFromFilesystem, hr]
  · exact loadImagesFromFilesystem_append tree store

/-- C8 witness: a missing root on a populated store. -/
theorem claim_C8_witness :
    loadImagesFromFilesystem
        ⟨false, [("circles", ⟨true, [("perfect", [⟨"x_1.png", true, false, 0⟩])], []⟩)]⟩
        [addRecord "circle" "perfect" "im" 5] =
      [addRecord "circle" "perfect" "im" 5] :=
  (claim_C8_scan_failure _ _).1 rfl

end DrawHandShapes
